import Mathlib

/-!
Verification development for the `spectrum-send` BPSK software modem.

The definitions below are a shallow embedding of `src/app.js` (framing, CRC,
convolutional FEC, Viterbi decoding, frame synchronizer) and of the
symbol-level / per-sample state machines of `src/demod-worklet.js`.

Modelling conventions:
* JS numbers holding integers are `Nat`; JS 32-bit ops are mirrored with
  explicit masks (`&&& 0xffff`, `% 2^32`) exactly where the source wraps.
* JS arrays are `List Nat`; `arr[i]` on a possibly short array is `getD`
  (JS `undefined & 1` evaluates to `0`, matching the `getD` defaults used).
* The Viterbi metric array (`Float32Array` filled with `INF = 1e9`) is
  `List (Option Nat)`: `none` stands for the `INF` sentinel.  All real
  metrics are small integers (at most `2 * steps + 2`), far below `1e9`,
  and are exactly representable in `Float32`, so the two views coincide.
* Frames / events posted to the page (`addRx`, `log`, `postMessage`) are
  modelled by an explicit `RxEvent` list return value; pure UI logging has
  no observable effect on the decoder state and is dropped.
* The real-valued demodulator arithmetic (`src/demod-worklet.js`) is
  embedded over `ℚ`; the transcendental `Math.cos` / `Math.sin` /
  `Math.hypot` are passed in as explicit function parameters.
-/

namespace SpectrumSend

/-! ### Constants from `src/app.js` -/

def PREAMBLE_BITS : Nat := 80
def SYNC_WORD : Nat := 0xa5a5a5a5
def VERSION : Nat := 1
/-- `FLUSH_BITS = K - 1` with constraint length `K = 7`. -/
def FLUSH_BITS : Nat := 6
def G0 : Nat := 0x5b
def G1 : Nat := 0x79

/-! ### Bit/word codec (`wordToBits`, `bytesToBits`, `bitsToByte`,
`bitsToBytes`, `bitsToWord` in `src/app.js`) -/

/-- `wordToBits(word, width)`: MSB-first, pushes `(word >> i) & 1` for
`i = width-1` down to `0`. -/
def wordToBits (word width : Nat) : List Nat :=
  (List.range width).map (fun k => (word >>> (width - 1 - k)) &&& 1)

/-- `bytesToBits(bytes)`: each byte expanded MSB-first into 8 bits. -/
def bytesToBits : List Nat → List Nat
  | [] => []
  | b :: rest => wordToBits b 8 ++ bytesToBits rest

/-- `bitsToByte(bits)`: `val = (val << 1) | (bits[i] & 1)` for `i = 0..7`.
A missing entry reads as `0` (JS `undefined & 1 = 0`). -/
def bitsToByte (bits : List Nat) : Nat :=
  (List.range 8).foldl (fun val i => (val <<< 1) ||| (bits.getD i 0 &&& 1)) 0

/-- `bitsToBytes(bits)`: packs complete groups of 8 bits, silently
truncating a trailing partial byte (loop condition `i + 7 < bits.length`). -/
def bitsToBytes (bits : List Nat) : List Nat :=
  if h : 8 ≤ bits.length then
    bitsToByte (bits.take 8) :: bitsToBytes (bits.drop 8)
  else []
termination_by bits.length
decreasing_by simp [List.length_drop]; omega

/-- `bitsToWord(bits)`: MSB-first accumulation; each step is a JS 32-bit
operation, modelled with `% 2^32`; the final `>>> 0` is then a no-op. -/
def bitsToWord (bits : List Nat) : Nat :=
  bits.foldl (fun val b => ((val <<< 1) ||| (b &&& 1)) % 4294967296) 0

/-! ### CRC-16 engine (`crc16` in `src/app.js`) -/

/-- One shift step of the CRC loop: `crc = (crc & 0x8000) ? ((crc << 1) ^
0x1021) : (crc << 1)` followed by `crc &= 0xffff`. -/
def crcShiftStep (crc : Nat) : Nat :=
  if crc &&& 0x8000 ≠ 0 then ((crc <<< 1) ^^^ 0x1021) &&& 0xffff
  else (crc <<< 1) &&& 0xffff

/-- Per-byte CRC update: `crc ^= b << 8` then eight shift steps. -/
def crcByte (crc b : Nat) : Nat :=
  (List.range 8).foldl (fun c _ => crcShiftStep c) (crc ^^^ (b <<< 8))

/-- `crc16(bytes)` from `src/app.js`: init 0xffff, bytes folded in order. -/
def crc16 (bytes : List Nat) : Nat := bytes.foldl crcByte 0xffff

/-- Modelled from the spec (§4.2): the CRC-16/CCITT-FALSE reference —
register initialised to `0xFFFF`, each byte XORed into the high byte,
eight MSB-first shift steps with polynomial `0x1021`, register kept to
16 bits, no final XOR, no reflection.  Used only as the comparison point
for the refinement claim about `crc16`. -/
def crcSpecStep (reg : Nat) : Nat :=
  if reg.testBit 15 then ((reg * 2) ^^^ 0x1021) % 65536 else (reg * 2) % 65536

/-- Modelled from the spec (§4.2): per-byte reference update. -/
def crcSpecByte (reg b : Nat) : Nat :=
  (List.range 8).foldl (fun r _ => crcSpecStep r) (reg ^^^ ((b % 256) * 256))

/-- Modelled from the spec (§4.2): the reference CRC over a byte list. -/
def crc16Spec (bytes : List Nat) : Nat := bytes.foldl crcSpecByte 0xffff

/-! ### Convolutional encoder (`parity`, `convEncode` in `src/app.js`) -/

/-- `parity(v)`: XOR-fold of the low bits; the source folds a value that
always fits 7 bits, so the three shifts shown suffice. -/
def parity (v : Nat) : Nat :=
  let v1 := v ^^^ (v >>> 4)
  let v2 := v1 ^^^ (v1 >>> 2)
  let v3 := v2 ^^^ (v2 >>> 1)
  v3 &&& 1

/-- The shift-register update inside `pushBit`:
`state = ((state << 1) | (b & 1)) & 0x7f`. -/
def convPush (state b : Nat) : Nat := ((state <<< 1) ||| (b &&& 1)) &&& 0x7f

/-- The encoder loop of `convEncode`, two output bits per input bit. -/
def convEncodeGo : Nat → List Nat → List Nat
  | _, [] => []
  | state, b :: rest =>
    let st := convPush state b
    parity (st &&& G0) :: parity (st &&& G1) :: convEncodeGo st rest

/-- `convEncode(infoBits)`: start in state 0, encode the info bits then
`FLUSH_BITS` zero tail bits. -/
def convEncode (infoBits : List Nat) : List Nat :=
  convEncodeGo 0 (infoBits ++ List.replicate FLUSH_BITS 0)

/-! ### Trellis transition table (`buildTransitions` in `src/app.js`):
`reg = ((state << 1) | bit) & 0x7f`, `next = reg & 0x3f`,
`o0 = parity(reg & G0)`, `o1 = parity(reg & G1)`. -/

def transNext (state bit : Nat) : Nat :=
  (((state <<< 1) ||| bit) &&& 0x7f) &&& 0x3f

def transO0 (state bit : Nat) : Nat :=
  parity ((((state <<< 1) ||| bit) &&& 0x7f) &&& G0)

def transO1 (state bit : Nat) : Nat :=
  parity ((((state <<< 1) ||| bit) &&& 0x7f) &&& G1)

/-! ### Viterbi decoder (`viterbiDecode` in `src/app.js`)

The JS double loop `for (state …) for (bit …)` that fills `nextMetrics`
and `dec` is written as a left fold over the flattened `(state, bit)`
pair list in the same order; `continue` on an `INF` (`none`) base metric
is the first `match` arm.  The strict `cand < nextMetrics[t.next]`
comparison (with `INF` larger than every real metric) is mirrored
exactly, so first-found ties win, as in the source. -/

def stepPairs : List (Nat × Nat) :=
  (List.range 64).foldr (fun s acc => (s, 0) :: (s, 1) :: acc) []

def stepUpd (metrics : List (Option Nat)) (r0 r1 : Nat)
    (acc : List (Option Nat) × List Nat) (sb : Nat × Nat) :
    List (Option Nat) × List Nat :=
  match metrics.getD sb.1 none with
  | none => acc
  | some base =>
    let nxt := transNext sb.1 sb.2
    let dist := (if transO0 sb.1 sb.2 = r0 then 0 else 1) +
                (if transO1 sb.1 sb.2 = r1 then 0 else 1)
    let cand := base + dist
    match acc.1.getD nxt none with
    | none => (acc.1.set nxt (some cand), acc.2.set nxt ((sb.1 <<< 1) ||| sb.2))
    | some m =>
      if cand < m then
        (acc.1.set nxt (some cand), acc.2.set nxt ((sb.1 <<< 1) ||| sb.2))
      else acc

/-- One trellis step: returns the new metric array and the decision array
(`dec`, default 0 as in the fresh `Uint8Array(64)`). -/
def viterbiStep (metrics : List (Option Nat)) (r0 r1 : Nat) :
    List (Option Nat) × List Nat :=
  stepPairs.foldl (stepUpd metrics r0 r1)
    (List.replicate 64 none, List.replicate 64 0)

/-- The forward pass: `steps` iterations reading `codedBits[2i]`,
`codedBits[2i+1]`, collecting the per-step decision arrays in order. -/
def viterbiForward :
    List (Option Nat) → List Nat → Nat → List (Option Nat) × List (List Nat)
  | metrics, _, 0 => (metrics, [])
  | metrics, coded, steps + 1 =>
    let r0 := coded.getD 0 0
    let r1 := coded.getD 1 0
    let md := viterbiStep metrics r0 r1
    let rest := viterbiForward md.1 (coded.drop 2) steps
    (rest.1, md.2 :: rest.2)

/-- Initial metrics: `metrics.fill(INF); metrics[0] = 0`. -/
def initMetrics : List (Option Nat) := (List.replicate 64 none).set 0 (some 0)

/-- The JS `<` on metrics, with the `INF` sentinel modelled as `none`
(`INF < INF` is false, real `< INF` is true, `INF <` real is false). -/
def ltOpt : Option Nat → Option Nat → Bool
  | some a, some b => a < b
  | some _, none => true
  | none, _ => false

/-- Terminal-state selection: first strict minimum over all 64 states
(the source starts from state 0 and only replaces on strictly smaller). -/
def bestStateOf (metrics : List (Option Nat)) : Nat :=
  ((List.range 64).foldl
    (fun acc s =>
      if ltOpt (metrics.getD s none) acc.2 then (s, metrics.getD s none) else acc)
    (0, metrics.getD 0 none)).1

/-- Traceback: the decision lists are supplied last-step-first; each step
reads `code = decisions[i][state]`, emits `code & 1` in front of the
accumulated bits and moves to `code >> 1`. -/
def tracebackGo : List (List Nat) → Nat → List Nat → List Nat
  | [], _, accBits => accBits
  | dec :: rest, state, accBits =>
    let code := dec.getD state 0
    tracebackGo rest (code >>> 1) ((code &&& 1) :: accBits)

/-- `viterbiDecode(codedBits)` from `src/app.js`. -/
def viterbiDecode (codedBits : List Nat) : List Nat :=
  let evenLen := codedBits.length - codedBits.length % 2
  if evenLen < 2 then []
  else
    let steps := evenLen / 2
    let fw := viterbiForward initMetrics codedBits steps
    tracebackGo fw.2.reverse (bestStateOf fw.1) []

/-! ### Frame codec and frame synchronizer (`src/app.js`)

The synchronizer's module-level mutable variables `bitBuffer`,
`codedBuffer`, `synced` form `SyncState`.  Observable outputs (`addRx`
on success, the CRC-error report, the invalid-length report) are
returned as an `RxEvent` list; pure log/status updates are dropped. -/

inductive RxEvent where
  | frameText : List Nat → Nat → Nat → RxEvent
  | crcError : Nat → Nat → RxEvent
  | invalidLength : Nat → RxEvent
deriving DecidableEq

structure SyncState where
  bitBuffer : List Nat
  codedBuffer : List Nat
  synced : Bool
deriving DecidableEq

def initialSyncState : SyncState := ⟨[], [], false⟩

/-- `resetAfterFrame()`: clears both buffers and the synced flag (the
`postMessage reset` to the worklet is an external effect). -/
def resetAfterFrame (_st : SyncState) : SyncState := ⟨[], [], false⟩

/-- `buildPreambleBits()`: alternating `1,0,1,0,…` of `PREAMBLE_BITS` bits. -/
def buildPreambleBits : List Nat :=
  (List.range PREAMBLE_BITS).map (fun i => if i % 2 = 0 then 1 else 0)

/-- `buildFrameBits(text, withFEC)`.  The `payload` argument stands for
`Array.from(encoder.encode(text))`, the UTF-8 bytes of the text; the
oversize `throw` is modelled as `none`. -/
def buildFrameBits (payload : List Nat) (withFEC : Bool) : Option (List Nat) :=
  if 255 < payload.length then none
  else
    let header := [payload.length &&& 0xff, VERSION]
    let dataBytes := header ++ payload
    let crc := crc16 dataBytes
    let crcBytes := [(crc >>> 8) &&& 0xff, crc &&& 0xff]
    let infoBits := bytesToBits header ++ bytesToBits payload ++ bytesToBits crcBytes
    some (buildPreambleBits ++ wordToBits SYNC_WORD 32 ++
      (if withFEC then convEncode infoBits else infoBits))

def syncBits : List Nat := wordToBits SYNC_WORD 32

/-- The inner pattern comparison of `findSync` at offset `i`.  The
defaults are distinct non-bit values so an out-of-range read never
matches; `findSync` only probes offsets where every read is in range. -/
def matchAt (buf pattern : List Nat) (i : Nat) : Bool :=
  (List.range pattern.length).all (fun j => buf.getD (i + j) 2 == pattern.getD j 3)

/-- `findSync(buf, pattern)`: first offset with a literal full match,
`none` for the JS `-1`. -/
def findSync (buf pattern : List Nat) : Option Nat :=
  (List.range (buf.length + 1 - pattern.length)).find? (fun i => matchAt buf pattern i)

/-- JS `arr.slice(-n)` (used as `bitBuffer.slice(-2048)`). -/
def lastN (n : Nat) (l : List Nat) : List Nat := l.drop (l.length - n)

/-- `tryDecodePlain()` acting on the synchronizer state. -/
def tryDecodePlain (st : SyncState) : SyncState × List RxEvent :=
  if st.synced = false then (st, [])
  else if st.bitBuffer.length < 16 then (st, [])
  else
    let len := bitsToByte (st.bitBuffer.take 8)
    let flags := bitsToByte ((st.bitBuffer.drop 8).take 8)
    if 255 < len then (resetAfterFrame st, [RxEvent.invalidLength len])
    else
      let need := 16 + len * 8 + 16
      if st.bitBuffer.length < need then (st, [])
      else
        let payloadBits := (st.bitBuffer.drop 16).take (len * 8)
        let crcBits := (st.bitBuffer.drop (16 + len * 8)).take 16
        let dataBytes := bitsToBytes (st.bitBuffer.take (16 + len * 8))
        let recvCrc := bitsToWord crcBits
        let calcCrc := crc16 dataBytes
        if recvCrc = calcCrc then
          (resetAfterFrame st, [RxEvent.frameText (bitsToBytes payloadBits) len flags])
        else
          (resetAfterFrame st, [RxEvent.crcError calcCrc recvCrc])

/-- `tryDecodeFrame()` (FEC path) acting on the synchronizer state. -/
def tryDecodeFrame (st : SyncState) : SyncState × List RxEvent :=
  let minCodedBits := 2 * (16 + 16 + FLUSH_BITS)
  if st.codedBuffer.length < minCodedBits then (st, [])
  else
    let decodedSoft := viterbiDecode st.codedBuffer
    if decodedSoft.length = 0 then (st, [])
    else if decodedSoft.length ≤ FLUSH_BITS then (st, [])
    else
      let infoBits := decodedSoft.take (decodedSoft.length - FLUSH_BITS)
      if infoBits.length < 16 then (st, [])
      else
        let len := bitsToByte (infoBits.take 8)
        let flags := bitsToByte ((infoBits.drop 8).take 8)
        if 255 < len then (resetAfterFrame st, [RxEvent.invalidLength len])
        else
          let neededInfo := 16 + len * 8 + 16
          let neededCoded := 2 * (neededInfo + FLUSH_BITS)
          if st.codedBuffer.length < neededCoded then (st, [])
          else
            let decoded := viterbiDecode (st.codedBuffer.take neededCoded)
            if decoded.length = 0 ∨ decoded.length < neededInfo + FLUSH_BITS then (st, [])
            else
              let info := decoded.take neededInfo
              let payloadBits := (info.drop 16).take (len * 8)
              let crcBits := info.drop (16 + len * 8)
              let dataBytes := bitsToBytes (info.take (16 + len * 8))
              let recvCrc := bitsToWord crcBits
              let calcCrc := crc16 dataBytes
              if recvCrc = calcCrc then
                (resetAfterFrame st, [RxEvent.frameText (bitsToBytes payloadBits) len flags])
              else
                (resetAfterFrame st, [RxEvent.crcError calcCrc recvCrc])

/-- `handleBitsPlain(bits)`: append, then either sync-search (with the
4096/2048 trim) or decode. -/
def handleBitsPlain (st : SyncState) (bits : List Nat) : SyncState × List RxEvent :=
  let buf := st.bitBuffer ++ bits
  if st.synced = false then
    match findSync buf syncBits with
    | some idx =>
      ({ st with bitBuffer := buf.drop (idx + syncBits.length), synced := true }, [])
    | none =>
      if 4096 < buf.length then ({ st with bitBuffer := lastN 2048 buf }, [])
      else ({ st with bitBuffer := buf }, [])
  else
    tryDecodePlain { st with bitBuffer := buf }

/-- `handleBitsFec(bits)`: same sync search on the raw buffer; once
synced the batch also goes to the coded buffer and `tryDecodeFrame` runs. -/
def handleBitsFec (st : SyncState) (bits : List Nat) : SyncState × List RxEvent :=
  let buf := st.bitBuffer ++ bits
  if st.synced = false then
    match findSync buf syncBits with
    | some idx =>
      ({ bitBuffer := [], codedBuffer := buf.drop (idx + syncBits.length), synced := true }, [])
    | none =>
      if 4096 < buf.length then ({ st with bitBuffer := lastN 2048 buf }, [])
      else ({ st with bitBuffer := buf }, [])
  else
    tryDecodeFrame { st with bitBuffer := buf, codedBuffer := st.codedBuffer ++ bits }

/-- `handleBits(bits)`: drops empty batches, dispatches on the FEC flag. -/
def handleBits (useFEC : Bool) (st : SyncState) (bits : List Nat) :
    SyncState × List RxEvent :=
  if bits.isEmpty then (st, [])
  else if useFEC then handleBitsFec st bits
  else handleBitsPlain st bits

/-- Feeding a sequence of bit batches through the synchronizer from the
initial state, collecting all emitted events in order. -/
def processBatches (useFEC : Bool) (batches : List (List Nat)) :
    SyncState × List RxEvent :=
  batches.foldl (fun acc b =>
    let r := handleBits useFEC acc.1 b
    (r.1, acc.2 ++ r.2)) (initialSyncState, [])

/-! ### Demodulator, symbol level (`BpskDemodProcessor.handleSymbol` in
`src/demod-worklet.js`)

The per-symbol logic is embedded over `ℚ`: the matched-filter output
`val` is a rational, the correlation is an exact rational.  The
`postMessage` calls (`locked`, `pll`) are external diagnostics with no
effect on the bit stream; their state side effects (`pllReport`,
`holdoff`, `lockedFlag`) are kept faithfully. -/

structure DemodState where
  preambleSymbols : Nat
  holdoffSymbols : Nat
  lockThreshold : ℚ
  signBuf : List Int
  lockedFlag : Bool
  holdoff : Nat
  pllReport : Int
  outBits : List Nat

/-- The demodulator state right after the constructor runs
(`preambleSymbols = 80`, `holdoffSymbols = 40`, `lockThreshold = 0.3`). -/
def demodInit : DemodState :=
  { preambleSymbols := 80, holdoffSymbols := 40, lockThreshold := 3/10,
    signBuf := [], lockedFlag := false, holdoff := 0, pllReport := 0,
    outBits := [] }

/-- `this.altSeq`: `+1,-1,+1,-1,…` of the configured preamble length. -/
def altSeq (n : Nat) : List Int :=
  (List.range n).map (fun i => if i % 2 = 0 then (1 : Int) else -1)

/-- Hard decision: `val >= 0 ? 0 : 1`. -/
def hardBit (val : ℚ) : Nat := if 0 ≤ val then 0 else 1

/-- `signBuf.push(sign)` followed by `shift()` once the window exceeds
the preamble length. -/
def pushSign (n : Nat) (buf : List Int) (sign : Int) : List Int :=
  let sb := buf ++ [sign]
  if n < sb.length then sb.drop 1 else sb

/-- The normalized preamble correlation
`corr = (Σ signBuf[i] * altSeq[i]) / preambleSymbols`. -/
def corrOf (n : Nat) (buf : List Int) : ℚ :=
  ((List.zipWith (· * ·) buf (altSeq n)).foldl (· + ·) 0 : Int) / (n : ℚ)

/-- The correlation / lock-state portion of `handleSymbol` (everything
before the pll-report counter and the emission gate). -/
def lockUpdate (st : DemodState) (bit : Nat) : DemodState :=
  let sign : Int := if bit = 0 then 1 else -1
  let sb := pushSign st.preambleSymbols st.signBuf sign
  let st1 := { st with signBuf := sb }
  if sb.length = st.preambleSymbols then
    let corr := corrOf st.preambleSymbols sb
    if corr > st.lockThreshold ∧ st.lockedFlag = false then
      { st1 with lockedFlag := true, holdoff := st.holdoffSymbols, pllReport := 400 }
    else if corr < st.lockThreshold * (1/2) then
      { st1 with lockedFlag := false }
    else st1
  else st1

/-- The pll-report counter: `if (lockedFlag && pllReport-- <= 0)
pllReport = 400` (post-decrement, short-circuited when unlocked). -/
def pllReportUpdate (st : DemodState) : DemodState :=
  if st.lockedFlag then
    if st.pllReport ≤ 0 then { st with pllReport := 400 }
    else { st with pllReport := st.pllReport - 1 }
  else st

/-- The emission gate at the end of `handleSymbol`: skip (and decrement
holdoff) only when locked with holdoff pending, otherwise push the bit. -/
def emitGate (st : DemodState) (bit : Nat) : DemodState :=
  if st.lockedFlag = true ∧ 0 < st.holdoff then { st with holdoff := st.holdoff - 1 }
  else { st with outBits := st.outBits ++ [bit] }

/-- `handleSymbol(val)`: hard decision, correlation/lock update,
pll-report counter, then the emission gate. -/
def handleSymbol (st : DemodState) (val : ℚ) : DemodState :=
  emitGate (pllReportUpdate (lockUpdate st (hardBit val))) (hardBit val)

/-- A sequence of symbol decisions (the per-block symbol loop of
`process`, with the batch flush reading `outBits`). -/
def runSymbols (st : DemodState) (vals : List ℚ) : DemodState :=
  vals.foldl handleSymbol st

/-! ### Demodulator, per-sample mixer and loops
(`BpskDemodProcessor.mixAndLoop` in `src/demod-worklet.js`)

Values are exact rationals; the irrational `Math.PI` float is replaced
by the rational constant `piQ` (its double-precision decimal value) and
`Math.cos`, `Math.sin`, `Math.hypot` are taken as oracle function
parameters `cosF`, `sinF`, `hypotF`, so every claim below is about the
clamping / wrapping structure, not about transcendental arithmetic. -/

def piQ : ℚ := 3141592653589793 / 1000000000000000

def twoPiQ : ℚ := 2 * piQ

/-- `this.pllAlpha = 2e-4`. -/
def pllAlphaC : ℚ := 2 / 10000

/-- `this.pllBeta = 5e-7`. -/
def pllBetaC : ℚ := 5 / 10000000

/-- `calcAlpha(cutoff)` at sample rate `fs`: `dt / (rc + dt)` with
`dt = 1/fs`, `rc = 1/(2π·cutoff)`. -/
def calcAlpha (fs cutoff : ℚ) : ℚ :=
  (1 / fs) / (1 / (twoPiQ * cutoff) + 1 / fs)

/-- `ncoStep = 2π·fc / fs`. -/
def ncoStepOf (fc fs : ℚ) : ℚ := twoPiQ * fc / fs

/-- The single-subtraction phase wrap used (twice) inside `mixAndLoop`:
`if (phase > 2π) phase -= 2π; else if (phase < 0) phase += 2π`. -/
def wrapPhase (x : ℚ) : ℚ :=
  if twoPiQ < x then x - twoPiQ else if x < 0 then x + twoPiQ else x

structure MixState where
  phase : ℚ
  freqCorr : ℚ
  lpI : ℚ
  lpQ : ℚ
  env : ℚ

/-- The mixer state after the constructor / `reset()`. -/
def mixInit : MixState := { phase := 0, freqCorr := 0, lpI := 0, lpQ := 0, env := 1/1000 }

structure MixCfg where
  ncoStep : ℚ
  lpAlpha : ℚ
  agcAlpha : ℚ

/-- `mixAndLoop(sample)`: NCO advance + wrap, I/Q mixing, one-pole
low-pass, AGC, Costas error, freq-correction clamp to ±0.1, proportional
phase nudge + wrap.  Returns the new state and the normalized in-phase
sample fed to the matched filter. -/
def mixAndLoop (cfg : MixCfg) (cosF sinF : ℚ → ℚ) (hypotF : ℚ → ℚ → ℚ)
    (st : MixState) (sample : ℚ) : MixState × ℚ :=
  let phase1 := wrapPhase (st.phase + cfg.ncoStep + st.freqCorr)
  let c := cosF phase1
  let s := sinF phase1
  let iRaw := sample * c
  let qRaw := sample * (-s)
  let lpI := st.lpI + cfg.lpAlpha * (iRaw - st.lpI)
  let lpQ := st.lpQ + cfg.lpAlpha * (qRaw - st.lpQ)
  let mag := hypotF lpI lpQ
  let env := st.env + cfg.agcAlpha * (mag - st.env)
  let gain := 1 / max (1/10000) env
  let iN := lpI * gain
  let qN := lpQ * gain
  let err := iN * qN
  let fc1 := st.freqCorr + pllBetaC * err
  let fc2 := if (1:ℚ)/10 < fc1 then (1:ℚ)/10
             else if fc1 < -(1:ℚ)/10 then -(1:ℚ)/10 else fc1
  let phase2 := wrapPhase (phase1 + pllAlphaC * err)
  ({ phase := phase2, freqCorr := fc2, lpI := lpI, lpQ := lpQ, env := env }, iN)

/-- The Costas error term `err = iN * qN` computed by `mixAndLoop`,
exposed for stating hypotheses about the phase nudge magnitude. -/
def mixErr (cfg : MixCfg) (cosF sinF : ℚ → ℚ) (hypotF : ℚ → ℚ → ℚ)
    (st : MixState) (sample : ℚ) : ℚ :=
  let phase1 := wrapPhase (st.phase + cfg.ncoStep + st.freqCorr)
  let c := cosF phase1
  let s := sinF phase1
  let iRaw := sample * c
  let qRaw := sample * (-s)
  let lpI := st.lpI + cfg.lpAlpha * (iRaw - st.lpI)
  let lpQ := st.lpQ + cfg.lpAlpha * (qRaw - st.lpQ)
  let mag := hypotF lpI lpQ
  let env := st.env + cfg.agcAlpha * (mag - st.env)
  let gain := 1 / max (1/10000) env
  (lpI * gain) * (lpQ * gain)

/-- Iterated per-sample processing (the sample loop of `process`). -/
def mixRun (cfg : MixCfg) (cosF sinF : ℚ → ℚ) (hypotF : ℚ → ℚ → ℚ)
    (st : MixState) (samples : List ℚ) : MixState :=
  samples.foldl (fun s x => (mixAndLoop cfg cosF sinF hypotF s x).1) st

/-- Derived quantities of `tryDecodePlain` on a synced state: the declared
length, flags, header+payload bytes, received CRC and payload bytes. -/
def plainLen (st : SyncState) : Nat := bitsToByte (st.bitBuffer.take 8)

def plainFlags (st : SyncState) : Nat := bitsToByte ((st.bitBuffer.drop 8).take 8)

def plainData (st : SyncState) : List Nat :=
  bitsToBytes (st.bitBuffer.take (16 + plainLen st * 8))

def plainRecv (st : SyncState) : Nat :=
  bitsToWord ((st.bitBuffer.drop (16 + plainLen st * 8)).take 16)

def plainPayloadBytes (st : SyncState) : List Nat :=
  bitsToBytes ((st.bitBuffer.drop 16).take (plainLen st * 8))

/-- Derived quantities of `tryDecodeFrame`: the header fields come from
the first (whole-buffer) Viterbi pass, the data from the second pass over
exactly the needed coded bits — as in the source. -/
def fecSoftInfo (st : SyncState) : List Nat :=
  let d := viterbiDecode st.codedBuffer
  d.take (d.length - FLUSH_BITS)

def fecDeclaredLen (st : SyncState) : Nat := bitsToByte ((fecSoftInfo st).take 8)

def fecFlags (st : SyncState) : Nat := bitsToByte (((fecSoftInfo st).drop 8).take 8)

def fecNeededInfo (st : SyncState) : Nat := 16 + fecDeclaredLen st * 8 + 16

def fecNeededCoded (st : SyncState) : Nat := 2 * (fecNeededInfo st + FLUSH_BITS)

def fecInfo (st : SyncState) : List Nat :=
  (viterbiDecode (st.codedBuffer.take (fecNeededCoded st))).take (fecNeededInfo st)

def fecData (st : SyncState) : List Nat :=
  bitsToBytes ((fecInfo st).take (16 + fecDeclaredLen st * 8))

def fecRecv (st : SyncState) : Nat :=
  bitsToWord ((fecInfo st).drop (16 + fecDeclaredLen st * 8))

def fecPayloadBytes (st : SyncState) : List Nat :=
  bitsToBytes (((fecInfo st).drop 16).take (fecDeclaredLen st * 8))

/-- The default mixer configuration at a 48 kHz context sample rate:
carrier 18 kHz, low-pass cutoff `max(150, 500*2) = 1000` Hz, AGC cutoff
20 Hz — exactly the constructor values of `BpskDemodProcessor`. -/
def mixCfg48 : MixCfg :=
  ⟨ncoStepOf 18000 48000, calcAlpha 48000 1000, calcAlpha 48000 20⟩

/-! ## Support lemmas -/

/-- Each step of the `bitsToByte` accumulator at most doubles-plus-one. -/
theorem bitsToByteStep_lt {v k : Nat} (b : Nat) (h : v < 2 ^ k) :
    (v <<< 1) ||| (b &&& 1) < 2 ^ (k + 1) := by
  have hp : 0 < 2 ^ k := Nat.pos_pow_of_pos k (by norm_num)
  have h3 : 2 ^ (k + 1) = 2 ^ k * 2 := pow_succ 2 k
  apply Nat.or_lt_two_pow
  · rw [Nat.shiftLeft_eq]
    have h4 : v * 2 ^ 1 = v * 2 := by norm_num
    omega
  · have h2 : b &&& 1 < 2 := by
      rw [Nat.and_one_is_mod]
      exact Nat.mod_lt b (by norm_num)
    omega

theorem bitsToByte_fold_lt (bits : List Nat) :
    ∀ (l : List Nat) (v k : Nat), v < 2 ^ k →
      l.foldl (fun val i => (val <<< 1) ||| (bits.getD i 0 &&& 1)) v < 2 ^ (k + l.length) := by
  intro l
  induction l with
  | nil => intro v k h; simpa using h
  | cons x xs ih =>
    intro v k h
    have h1 := bitsToByteStep_lt (bits.getD x 0) h
    have h2 := ih _ (k + 1) h1
    simpa [Nat.add_assoc, Nat.add_comm, Nat.add_left_comm] using h2

/-- `bitsToByte` always lands in `[0, 255]`, whatever the input list. -/
theorem bitsToByte_lt (bits : List Nat) : bitsToByte bits < 256 := by
  have h := bitsToByte_fold_lt bits (List.range 8) 0 0 (by norm_num)
  simpa [bitsToByte] using h

theorem length_lastN (n : Nat) (l : List Nat) :
    (lastN n l).length = l.length - (l.length - n) := by
  simp [lastN]

theorem lockUpdate_outBits (st : DemodState) (b : Nat) :
    (lockUpdate st b).outBits = st.outBits := by
  simp only [lockUpdate]
  split_ifs <;> rfl

theorem pllReportUpdate_outBits (st : DemodState) :
    (pllReportUpdate st).outBits = st.outBits := by
  simp only [pllReportUpdate]
  split_ifs <;> rfl

/-! ## Claim theorems -/

/-- C6: for every payload whose byte encoding exceeds 255 bytes, frame
encoding fails (no frame bits are produced) before any transmission; for
every payload of at most 255 bytes encoding succeeds. -/
theorem c6_oversize_rejection (payload : List Nat) (withFEC : Bool) :
    (buildFrameBits payload withFEC = none ↔ 255 < payload.length) ∧
    ((buildFrameBits payload withFEC).isSome ↔ payload.length ≤ 255) := by
  by_cases h : 255 < payload.length
  · refine ⟨by simp [buildFrameBits, h], by simp [buildFrameBits, h] <;> omega⟩
  · refine ⟨by simp [buildFrameBits, h], by simp [buildFrameBits, h] <;> omega⟩

/-- C10: `bitsToByte` always returns a value in `[0, 255]`, so the
decoded length field can never exceed 255 and the invalid-length resync
branch of both the plain and the FEC frame decoder is unreachable: no
`invalidLength` event is ever emitted. -/
theorem c10_invalid_length_unreachable (bits : List Nat) (st : SyncState) (l : Nat) :
    bitsToByte bits < 256 ∧
    RxEvent.invalidLength l ∉ (tryDecodePlain st).2 ∧
    RxEvent.invalidLength l ∉ (tryDecodeFrame st).2 := by
  refine ⟨bitsToByte_lt bits, ?_, ?_⟩
  · have hno : ¬ 255 < bitsToByte (st.bitBuffer.take 8) := by
      have := bitsToByte_lt (st.bitBuffer.take 8); omega
    simp only [tryDecodePlain]
    split_ifs <;> simp_all
  · have hno : ¬ 255 < bitsToByte
        (((viterbiDecode st.codedBuffer).take
          ((viterbiDecode st.codedBuffer).length - FLUSH_BITS)).take 8) := by
      have := bitsToByte_lt
        (((viterbiDecode st.codedBuffer).take
          ((viterbiDecode st.codedBuffer).length - FLUSH_BITS)).take 8)
      omega
    simp only [tryDecodeFrame]
    split_ifs <;> simp_all

/-- C8: while unsynced, if a batch is appended and the sync word is not
found, a buffer longer than 4096 bits is trimmed to its most recent 2048
bits (a suffix), so the resulting buffer never exceeds 4096 bits — in
particular never 4096 plus the batch size — in both FEC modes. -/
theorem c8_bounded_unsynced_buffer (st : SyncState) (bits : List Nat)
    (hs : st.synced = false)
    (hf : findSync (st.bitBuffer ++ bits) syncBits = none) :
    ((handleBitsPlain st bits).1.bitBuffer =
      (if 4096 < (st.bitBuffer ++ bits).length then lastN 2048 (st.bitBuffer ++ bits)
       else st.bitBuffer ++ bits)) ∧
    ((handleBitsFec st bits).1.bitBuffer =
      (if 4096 < (st.bitBuffer ++ bits).length then lastN 2048 (st.bitBuffer ++ bits)
       else st.bitBuffer ++ bits)) ∧
    (handleBitsPlain st bits).1.bitBuffer.length ≤ 4096 + bits.length ∧
    (handleBitsFec st bits).1.bitBuffer.length ≤ 4096 + bits.length := by
  have hlen : (st.bitBuffer ++ bits).length = st.bitBuffer.length + bits.length :=
    List.length_append _ _
  have htrim := length_lastN 2048 (st.bitBuffer ++ bits)
  simp only [handleBitsPlain, handleBitsFec, hs, hf, eq_self_iff_true, if_true]
  split_ifs with h
  · refine ⟨by simp, by simp, ?_, ?_⟩ <;> simp [lastN] <;> omega
  · refine ⟨by simp, by simp, ?_, ?_⟩ <;> simp <;> omega

set_option maxRecDepth 100000 in
/-- C8 witness: a one-bit batch into the fresh unsynced state. -/
theorem c8_bounded_unsynced_buffer_witness :
    (handleBitsPlain initialSyncState [0]).1.bitBuffer = [0] ∧
    (handleBitsFec initialSyncState [0]).1.bitBuffer = [0] := by
  have h := c8_bounded_unsynced_buffer initialSyncState [0] rfl (by decide)
  exact ⟨by rw [h.1]; simp [initialSyncState], by rw [h.2.1]; simp [initialSyncState]⟩

/-- C4 counterexample: the claim says no bits are forwarded while the
demodulator is Unlocked, but processing a single symbol from the fresh
(unlocked) state appends its hard-decision bit to the output batch: the
emission gate only suppresses bits while locked with holdoff pending. -/
theorem c4_lock_gated_counterexample :
    demodInit.lockedFlag = false ∧
    (runSymbols demodInit [0]).lockedFlag = false ∧
    (runSymbols demodInit [0]).outBits = [0] := by
  decide

/-- C4 amended: for every symbol decision, the demodulator appends the
hard-decision bit to the output batch unless, after the correlation/lock
and pll-counter updates, it is Locked with a positive holdoff count — in
which case the bit is skipped and the holdoff counter decremented.  In
particular bits are forwarded while Unlocked too: emission is
continuous, not lock-gated. -/
theorem c4_emission_gate (st : DemodState) (val : ℚ) :
    ((pllReportUpdate (lockUpdate st (hardBit val))).lockedFlag = true ∧
        0 < (pllReportUpdate (lockUpdate st (hardBit val))).holdoff →
      (handleSymbol st val).outBits = st.outBits ∧
      (handleSymbol st val).holdoff =
        (pllReportUpdate (lockUpdate st (hardBit val))).holdoff - 1) ∧
    (¬((pllReportUpdate (lockUpdate st (hardBit val))).lockedFlag = true ∧
        0 < (pllReportUpdate (lockUpdate st (hardBit val))).holdoff) →
      (handleSymbol st val).outBits = st.outBits ++ [hardBit val] ∧
      (handleSymbol st val).holdoff =
        (pllReportUpdate (lockUpdate st (hardBit val))).holdoff) := by
  have ho : (pllReportUpdate (lockUpdate st (hardBit val))).outBits = st.outBits := by
    rw [pllReportUpdate_outBits, lockUpdate_outBits]
  constructor
  · intro h
    unfold handleSymbol emitGate
    rw [if_pos h]
    exact ⟨ho, rfl⟩
  · intro h
    unfold handleSymbol emitGate
    rw [if_neg h]
    exact ⟨by rw [ho], rfl⟩

/-- The single-subtraction wrap keeps a value of `[-2π, 2·2π]` inside the
closed interval `[0, 2π]`. -/
theorem wrapPhase_bounds (z : ℚ) (h0 : -twoPiQ ≤ z) (h1 : z ≤ 2 * twoPiQ) :
    0 ≤ wrapPhase z ∧ wrapPhase z ≤ twoPiQ := by
  have hpos : (0:ℚ) < twoPiQ := by norm_num [twoPiQ, piQ]
  unfold wrapPhase
  split_ifs with ha hb <;> constructor <;> linarith

theorem mixAndLoop_phase (cfg : MixCfg) (cosF sinF : ℚ → ℚ) (hypotF : ℚ → ℚ → ℚ)
    (st : MixState) (sample : ℚ) :
    (mixAndLoop cfg cosF sinF hypotF st sample).1.phase =
      wrapPhase (wrapPhase (st.phase + cfg.ncoStep + st.freqCorr) +
        pllAlphaC * mixErr cfg cosF sinF hypotF st sample) := rfl

theorem mixAndLoop_freqCorr (cfg : MixCfg) (cosF sinF : ℚ → ℚ) (hypotF : ℚ → ℚ → ℚ)
    (st : MixState) (sample : ℚ) :
    (mixAndLoop cfg cosF sinF hypotF st sample).1.freqCorr =
      (if (1:ℚ)/10 < st.freqCorr + pllBetaC * mixErr cfg cosF sinF hypotF st sample
       then (1:ℚ)/10
       else if st.freqCorr + pllBetaC * mixErr cfg cosF sinF hypotF st sample < -(1:ℚ)/10
       then -(1:ℚ)/10
       else st.freqCorr + pllBetaC * mixErr cfg cosF sinF hypotF st sample) := rfl

/-- C9 counterexample: the claimed invariant `phase ∈ [0, 2π)` fails.
With the default configuration (carrier 18 kHz — inside the 15–21 kHz
clamp range — at a 48 kHz context), eight zero-valued samples advance the
NCO by `8 · (3/8) · 2π` and the strict wrap test `phase > 2π` leaves the
phase at exactly `2π`, outside the half-open range. -/
theorem c9_phase_range_counterexample :
    (mixRun mixCfg48 (fun _ => 0) (fun _ => 0) (fun _ _ => 0) mixInit
        (List.replicate 8 0)).phase = twoPiQ ∧
    ¬ (mixRun mixCfg48 (fun _ => 0) (fun _ => 0) (fun _ _ => 0) mixInit
        (List.replicate 8 0)).phase < twoPiQ := by
  have h : (mixRun mixCfg48 (fun _ => 0) (fun _ => 0) (fun _ _ => 0) mixInit
      (List.replicate 8 0)).phase = twoPiQ := by
    norm_num [mixRun, mixAndLoop, wrapPhase, mixCfg48, mixInit, ncoStepOf, calcAlpha,
      pllAlphaC, pllBetaC, twoPiQ, piQ, List.replicate, max_def]
  exact ⟨h, by rw [h]; exact lt_irrefl _⟩

/-- C9 amended: after each sample, the frequency-correction accumulator
always lies in `[-0.1, 0.1]` (the clamp is unconditional), and the NCO
phase lies in the closed interval `[0, 2π]` — the value `2π` itself is
attainable, since the wrap test is strict — provided the carrier is
within its 15–21 kHz clamp range (at a 48 kHz context rate) and the
per-sample Costas nudge `pllAlpha * err` does not exceed `2π` in
magnitude. -/
theorem c9_numeric_invariants (fc lpA agcA : ℚ) (cosF sinF : ℚ → ℚ)
    (hypotF : ℚ → ℚ → ℚ) (st : MixState) (sample : ℚ)
    (hfc0 : 15000 ≤ fc) (hfc1 : fc ≤ 21000)
    (hp0 : 0 ≤ st.phase) (hp1 : st.phase ≤ twoPiQ)
    (hq0 : -(1/10) ≤ st.freqCorr) (hq1 : st.freqCorr ≤ 1/10)
    (herr : |pllAlphaC * mixErr ⟨ncoStepOf fc 48000, lpA, agcA⟩ cosF sinF hypotF st sample| ≤ twoPiQ) :
    0 ≤ (mixAndLoop ⟨ncoStepOf fc 48000, lpA, agcA⟩ cosF sinF hypotF st sample).1.phase ∧
    (mixAndLoop ⟨ncoStepOf fc 48000, lpA, agcA⟩ cosF sinF hypotF st sample).1.phase ≤ twoPiQ ∧
    -(1/10) ≤ (mixAndLoop ⟨ncoStepOf fc 48000, lpA, agcA⟩ cosF sinF hypotF st sample).1.freqCorr ∧
    (mixAndLoop ⟨ncoStepOf fc 48000, lpA, agcA⟩ cosF sinF hypotF st sample).1.freqCorr ≤ 1/10 := by
  have hpos : (0:ℚ) < twoPiQ := by norm_num [twoPiQ, piQ]
  have htenth : (1:ℚ)/10 ≤ twoPiQ := by norm_num [twoPiQ, piQ]
  have hstep0 : 0 ≤ ncoStepOf fc 48000 := by
    unfold ncoStepOf
    apply div_nonneg (mul_nonneg (le_of_lt hpos) (by linarith)) (by norm_num)
  have hstep1 : ncoStepOf fc 48000 + 1/10 ≤ twoPiQ := by
    unfold ncoStepOf
    have hmono : twoPiQ * fc / 48000 ≤ twoPiQ * 21000 / 48000 := by
      apply div_le_div_of_nonneg_right ?_ (by norm_num)
      exact mul_le_mul_of_nonneg_left hfc1 (le_of_lt hpos)
    have hnum : twoPiQ * 21000 / 48000 + 1/10 ≤ twoPiQ := by norm_num [twoPiQ, piQ]
    linarith
  have herr2 := abs_le.mp herr
  have h1 := wrapPhase_bounds (st.phase + ncoStepOf fc 48000 + st.freqCorr)
    (by linarith) (by linarith)
  have h2 := wrapPhase_bounds
    (wrapPhase (st.phase + ncoStepOf fc 48000 + st.freqCorr) +
      pllAlphaC * mixErr ⟨ncoStepOf fc 48000, lpA, agcA⟩ cosF sinF hypotF st sample)
    (by linarith [h1.1, h1.2, herr2.1, herr2.2])
    (by linarith [h1.1, h1.2, herr2.1, herr2.2])
  refine ⟨?_, ?_, ?_, ?_⟩
  · rw [mixAndLoop_phase]; exact h2.1
  · rw [mixAndLoop_phase]; exact h2.2
  · rw [mixAndLoop_freqCorr]; split_ifs <;> linarith
  · rw [mixAndLoop_freqCorr]; split_ifs <;> linarith

/-- C9 amended witness: the default 18 kHz carrier, the initial mixer
state and a zero sample satisfy all side conditions. -/
theorem c9_numeric_invariants_witness :
    0 ≤ (mixAndLoop ⟨ncoStepOf 18000 48000, calcAlpha 48000 1000, calcAlpha 48000 20⟩
          (fun _ => 0) (fun _ => 0) (fun _ _ => 0) mixInit 0).1.phase ∧
    (mixAndLoop ⟨ncoStepOf 18000 48000, calcAlpha 48000 1000, calcAlpha 48000 20⟩
          (fun _ => 0) (fun _ => 0) (fun _ _ => 0) mixInit 0).1.phase ≤ twoPiQ ∧
    -(1/10) ≤ (mixAndLoop ⟨ncoStepOf 18000 48000, calcAlpha 48000 1000, calcAlpha 48000 20⟩
          (fun _ => 0) (fun _ => 0) (fun _ _ => 0) mixInit 0).1.freqCorr ∧
    (mixAndLoop ⟨ncoStepOf 18000 48000, calcAlpha 48000 1000, calcAlpha 48000 20⟩
          (fun _ => 0) (fun _ => 0) (fun _ _ => 0) mixInit 0).1.freqCorr ≤ 1/10 :=
  c9_numeric_invariants 18000 (calcAlpha 48000 1000) (calcAlpha 48000 20)
    (fun _ => 0) (fun _ => 0) (fun _ _ => 0) mixInit 0
    (by norm_num) (by norm_num) (by norm_num [mixInit]) (by norm_num [mixInit, twoPiQ, piQ])
    (by norm_num [mixInit]) (by norm_num [mixInit])
    (by norm_num [mixErr, mixInit, wrapPhase, calcAlpha, ncoStepOf, pllAlphaC,
      twoPiQ, piQ, max_def])

/-- Each CRC shift step of the source agrees with the reference step. -/
theorem crcShiftStep_eq (c : Nat) : crcShiftStep c = crcSpecStep c := by
  unfold crcShiftStep crcSpecStep
  have hand : c &&& 0x8000 = (c.testBit 15).toNat * 2 ^ 15 := by
    have h := Nat.and_two_pow c 15
    norm_num at h ⊢
    exact h
  have hsl : c <<< 1 = c * 2 := by rw [Nat.shiftLeft_eq]
  have hmask : ∀ x : Nat, x &&& 0xffff = x % 65536 := by
    intro x
    have h := Nat.and_pow_two_sub_one_eq_mod x 16
    norm_num at h ⊢
    exact h
  by_cases h : c.testBit 15
  · have hne : c &&& 0x8000 ≠ 0 := by rw [hand, h]; norm_num
    rw [if_pos hne, if_pos h, hmask, hsl]
  · have hz : c &&& 0x8000 = 0 := by rw [hand]; simp [h]
    rw [if_neg (by simp [hz]), if_neg h, hmask, hsl]

theorem crcByte_eq (c b : Nat) (hb : b < 256) : crcByte c b = crcSpecByte c b := by
  unfold crcByte crcSpecByte
  have hinit : c ^^^ (b <<< 8) = c ^^^ ((b % 256) * 256) := by
    rw [Nat.shiftLeft_eq, Nat.mod_eq_of_lt hb]
  rw [hinit]
  have hfold : ∀ (l : List Nat) (x : Nat),
      l.foldl (fun c2 _ => crcShiftStep c2) x = l.foldl (fun r _ => crcSpecStep r) x := by
    intro l
    induction l with
    | nil => intro x; rfl
    | cons y ys ih =>
      intro x
      simp only [List.foldl_cons]
      rw [crcShiftStep_eq]
      exact ih _
  exact hfold _ _

theorem crcShiftStep_lt (c : Nat) : crcShiftStep c < 65536 := by
  have h : ∀ x : Nat, x &&& 0xffff < 65536 := by
    intro x
    have h2 := Nat.and_lt_two_pow x (show (0xffff:Nat) < 2 ^ 16 by norm_num)
    norm_num at h2
    exact h2
  unfold crcShiftStep
  split_ifs <;> apply h

theorem crcByte_lt (c b : Nat) : crcByte c b < 65536 := by
  unfold crcByte
  rw [List.range_succ, List.foldl_append]
  simp only [List.foldl_cons, List.foldl_nil]
  exact crcShiftStep_lt _

theorem crc16_lt (bytes : List Nat) : crc16 bytes < 65536 := by
  have h : ∀ (l : List Nat) (c : Nat), c < 65536 → l.foldl crcByte c < 65536 := by
    intro l
    induction l with
    | nil => intro c hc; simpa using hc
    | cons y ys ih =>
      intro c _
      simp only [List.foldl_cons]
      exact ih _ (crcByte_lt _ _)
  exact h bytes 0xffff (by norm_num)

/-- C3: on byte lists, `crc16` computes exactly the CRC-16/CCITT-FALSE
reference (register init `0xFFFF`, byte XORed into the high byte, eight
MSB-first shift steps with polynomial `0x1021`, no final XOR, no
reflection), and the result is always a 16-bit value; being a pure
Lean function of its input it is deterministic and side-effect free. -/
theorem c3_crc16_reference (bytes : List Nat) (hb : ∀ b ∈ bytes, b < 256) :
    crc16 bytes = crc16Spec bytes ∧ crc16 bytes < 65536 := by
  refine ⟨?_, crc16_lt bytes⟩
  unfold crc16 crc16Spec
  have hfold : ∀ (l : List Nat), (∀ b ∈ l, b < 256) → ∀ c,
      l.foldl crcByte c = l.foldl crcSpecByte c := by
    intro l
    induction l with
    | nil => intro _ c; rfl
    | cons y ys ih =>
      intro hm c
      simp only [List.foldl_cons]
      rw [crcByte_eq c y (hm y (by simp))]
      exact ih (fun b hb2 => hm b (by simp [hb2])) _
  exact hfold bytes hb _

/-- C3 witness: the header+payload bytes of the frame for the text
`"hi"`. -/
theorem c3_crc16_reference_witness :
    crc16 [2, 1, 104, 105] = crc16Spec [2, 1, 104, 105] ∧
    crc16 [2, 1, 104, 105] < 65536 :=
  c3_crc16_reference [2, 1, 104, 105] (by decide)

/-- C4 amended witness: the fresh unlocked state forwards its bit. -/
theorem c4_emission_gate_witness :
    (handleSymbol demodInit 0).outBits = demodInit.outBits ++ [hardBit 0] ∧
    (handleSymbol demodInit 0).holdoff =
      (pllReportUpdate (lockUpdate demodInit (hardBit 0))).holdoff := by
  exact (c4_emission_gate demodInit 0).2 (by decide)

/-! ## Viterbi decoder length facts -/

theorem tracebackGo_length (ds : List (List Nat)) :
    ∀ (s : Nat) (acc : List Nat),
      (tracebackGo ds s acc).length = ds.length + acc.length := by
  induction ds with
  | nil => intro s acc; simp [tracebackGo]
  | cons d rest ih =>
    intro s acc
    simp only [tracebackGo, ih, List.length_cons, List.length_cons]
    omega

theorem viterbiForward_snd_length (steps : Nat) :
    ∀ (M : List (Option Nat)) (coded : List Nat),
      (viterbiForward M coded steps).2.length = steps := by
  induction steps with
  | zero => intro M coded; rfl
  | succ n ih =>
    intro M coded
    simp only [viterbiForward, List.length_cons, ih]

theorem viterbiDecode_length (coded : List Nat) :
    (viterbiDecode coded).length = coded.length / 2 := by
  simp only [viterbiDecode]
  split_ifs with h
  · simp only [List.length_nil]
    omega
  · rw [tracebackGo_length, List.length_reverse, viterbiForward_snd_length]
    simp only [List.length_nil]
    omega

/-- C7: decode starvation is a silent no-op.  On a synced state with
fewer accumulated bits than the declared frame needs (`16 + len*8 + 16`
uncoded, or the FEC-coded equivalent `2*(16 + len*8 + 16 + 6)`), the
decode attempt returns without emitting any event and leaves the
synchronizer state — synced flag and both buffers — unchanged, so a
frame declaring `length = 255` with only partial data keeps the
synchronizer waiting until more bits arrive or a reset occurs. -/
theorem c7_decode_starvation (st : SyncState) :
    (st.synced = true →
      st.bitBuffer.length < 16 + bitsToByte (st.bitBuffer.take 8) * 8 + 16 →
      tryDecodePlain st = (st, [])) ∧
    (st.codedBuffer.length < 2 * (16 + fecDeclaredLen st * 8 + 16 + FLUSH_BITS) →
      tryDecodeFrame st = (st, [])) := by
  constructor
  · intro hs hlen
    have hb := bitsToByte_lt (st.bitBuffer.take 8)
    simp only [tryDecodePlain]
    split_ifs with h0 h1 h2 h3 h4 <;>
      first
        | rfl
        | exact absurd h2 (by omega)
        | exact absurd hlen h3
  · intro hlen
    simp only [fecDeclaredLen, fecSoftInfo] at hlen
    simp only [tryDecodeFrame]
    split_ifs with h1 h2 h3 h4 h5 h6 h7 h8 <;>
      first
        | rfl
        | exact absurd hlen h6
        | exact absurd h5 (by
            have hbb := bitsToByte_lt
              (((viterbiDecode st.codedBuffer).take
                ((viterbiDecode st.codedBuffer).length - FLUSH_BITS)).take 8)
            omega)

set_option maxRecDepth 100000 in
/-- C7 witness: a synced state whose buffer declares `length = 255` but
holds only 100 payload bytes worth of bits; both decoders do nothing. -/
theorem c7_decode_starvation_witness :
    tryDecodePlain ⟨bytesToBits [255, 1] ++ List.replicate 800 0, [], true⟩ =
      (⟨bytesToBits [255, 1] ++ List.replicate 800 0, [], true⟩, []) ∧
    tryDecodeFrame ⟨bytesToBits [255, 1] ++ List.replicate 800 0, [], true⟩ =
      (⟨bytesToBits [255, 1] ++ List.replicate 800 0, [], true⟩, []) := by
  have h := c7_decode_starvation ⟨bytesToBits [255, 1] ++ List.replicate 800 0, [], true⟩
  exact ⟨h.1 rfl (by decide), h.2 (by decide)⟩


/-- C5: post-frame re-arm.  Whenever a complete frame is present (the
buffer holds at least the declared `16 + len*8 + 16` bits in the plain
path, or the FEC-coded equivalent in the coded path), the CRC validation
attempt always resets the synchronizer to the unsynced state with both
buffers emptied, and it emits exactly one event: the decoded frame when
the CRC matches, or a CRC-error report — never the payload — when it
mismatches. -/
theorem c5_post_frame_rearm (st : SyncState) :
    (st.synced = true → 16 + plainLen st * 8 + 16 ≤ st.bitBuffer.length →
      (tryDecodePlain st).1 = initialSyncState ∧
      (tryDecodePlain st).2 =
        (if plainRecv st = crc16 (plainData st)
         then [RxEvent.frameText (plainPayloadBytes st) (plainLen st) (plainFlags st)]
         else [RxEvent.crcError (crc16 (plainData st)) (plainRecv st)])) ∧
    (fecNeededCoded st ≤ st.codedBuffer.length →
      (tryDecodeFrame st).1 = initialSyncState ∧
      (tryDecodeFrame st).2 =
        (if fecRecv st = crc16 (fecData st)
         then [RxEvent.frameText (fecPayloadBytes st) (fecDeclaredLen st) (fecFlags st)]
         else [RxEvent.crcError (crc16 (fecData st)) (fecRecv st)])) := by
  constructor
  · intro hs hlen
    have hb := bitsToByte_lt (st.bitBuffer.take 8)
    simp only [plainLen] at hlen
    simp only [tryDecodePlain, hs, show (true = false) = False from by simp, if_false,
      plainRecv, plainData, plainLen, plainPayloadBytes,
      plainFlags, initialSyncState, resetAfterFrame]
    split_ifs <;>
      first
        | (exfalso; omega)
        | exact ⟨rfl, rfl⟩
  · intro hlen
    have hb := bitsToByte_lt
      (((viterbiDecode st.codedBuffer).take
        ((viterbiDecode st.codedBuffer).length - FLUSH_BITS)).take 8)
    have hdl := viterbiDecode_length st.codedBuffer
    simp only [fecNeededCoded, fecNeededInfo, fecDeclaredLen, fecSoftInfo] at hlen
    have hdl2 := viterbiDecode_length
      (st.codedBuffer.take (2 * (16 + bitsToByte
        (((viterbiDecode st.codedBuffer).take
          ((viterbiDecode st.codedBuffer).length - FLUSH_BITS)).take 8) * 8 + 16 + FLUSH_BITS)))
    have htk2 := List.length_take (2 * (16 + bitsToByte
        (((viterbiDecode st.codedBuffer).take
          ((viterbiDecode st.codedBuffer).length - FLUSH_BITS)).take 8) * 8 + 16 + FLUSH_BITS))
      st.codedBuffer
    have htk1 := List.length_take
      ((viterbiDecode st.codedBuffer).length - FLUSH_BITS) (viterbiDecode st.codedBuffer)
    simp only [tryDecodeFrame, fecRecv, fecData, fecPayloadBytes, fecFlags,
      fecDeclaredLen, fecSoftInfo, fecInfo, fecNeededCoded, fecNeededInfo,
      initialSyncState, resetAfterFrame]
    split_ifs <;>
      first
        | (exfalso; omega)
        | exact ⟨rfl, rfl⟩

/-! ## Bit/byte codec round-trip lemmas -/

theorem length_wordToBits (w n : Nat) : (wordToBits w n).length = n := by
  simp [wordToBits]

theorem wordToBits_mem_lt (w n : Nat) : ∀ x ∈ wordToBits w n, x < 2 := by
  intro x hx
  simp only [wordToBits, List.mem_map] at hx
  obtain ⟨k, _, hk⟩ := hx
  rw [← hk, Nat.and_one_is_mod]
  omega

theorem bytesToBits_append (a b : List Nat) :
    bytesToBits (a ++ b) = bytesToBits a ++ bytesToBits b := by
  induction a with
  | nil => rfl
  | cons x xs ih => simp [bytesToBits, ih]

theorem length_bytesToBits (bs : List Nat) :
    (bytesToBits bs).length = 8 * bs.length := by
  induction bs with
  | nil => rfl
  | cons x xs ih =>
    simp [bytesToBits, length_wordToBits, ih]
    ring

theorem bytesToBits_mem_lt (bs : List Nat) : ∀ x ∈ bytesToBits bs, x < 2 := by
  induction bs with
  | nil => intro x hx; simp [bytesToBits] at hx
  | cons y ys ih =>
    intro x hx
    simp only [bytesToBits, List.mem_append] at hx
    rcases hx with h | h
    · exact wordToBits_mem_lt y 8 x h
    · exact ih x h

set_option maxRecDepth 10000 in
theorem bitsToByte_wordToBits (b : Nat) (hb : b < 256) :
    bitsToByte (wordToBits b 8) = b := by
  have h : ∀ b2 < 256, bitsToByte (wordToBits b2 8) = b2 := by decide
  exact h b hb

theorem take_app_len (l1 l2 : List Nat) (n : Nat) (h : l1.length = n) :
    (l1 ++ l2).take n = l1 := List.take_left' h

theorem drop_app_len (l1 l2 : List Nat) (n : Nat) (h : l1.length = n) :
    (l1 ++ l2).drop n = l2 := List.drop_left' h

theorem bitsToBytes_bytesToBits (bs : List Nat) (hb : ∀ b ∈ bs, b < 256) :
    bitsToBytes (bytesToBits bs) = bs := by
  induction bs with
  | nil => simp [bitsToBytes, bytesToBits]
  | cons x xs ih =>
    have hlen : (bytesToBits (x :: xs)).length = 8 + 8 * xs.length := by
      simp [length_bytesToBits]
      ring
    rw [bitsToBytes]
    rw [dif_pos (by omega)]
    have hsplit : bytesToBits (x :: xs) = wordToBits x 8 ++ bytesToBits xs := rfl
    rw [hsplit, take_app_len _ _ 8 (length_wordToBits x 8),
      drop_app_len _ _ 8 (length_wordToBits x 8),
      bitsToByte_wordToBits x (hb x (by simp)),
      ih (fun b hbb => hb b (by simp [hbb]))]


/-! ## `bitsToWord` reconstruction lemmas -/

theorem shiftOr_eq (v b : Nat) (hb : b < 2) : (v <<< 1) ||| b = 2 * v + b := by
  interval_cases b
  · rw [Nat.shiftLeft_eq]
    simp
    omega
  · rw [Nat.shiftLeft_eq]
    have hv : v * 2 ^ 1 = 2 * v := by ring
    rw [hv]
    apply Nat.eq_of_testBit_eq
    intro i
    cases i with
    | zero =>
      have h1 : (2 * v) % 2 = 0 := by omega
      have h2 : (2 * v + 1) % 2 = 1 := by omega
      simp [Nat.testBit_or, Nat.testBit_zero, h1, h2]
    | succ i =>
      have h1 : (2 * v) / 2 = v := by omega
      have h2 : (2 * v + 1) / 2 = v := by omega
      have h3 : (1 : Nat) / 2 = 0 := by omega
      simp [Nat.testBit_or, Nat.testBit_add_one, Nat.or_div_two, h1, h2, h3]

theorem bitsToWord_pure (bits : List Nat) :
    ∀ (v k : Nat), (∀ b ∈ bits, b < 2) → bits.length + k ≤ 32 → v < 2 ^ k →
      bits.foldl (fun val b => ((val <<< 1) ||| (b &&& 1)) % 4294967296) v =
      bits.foldl (fun val b => 2 * val + b) v := by
  induction bits with
  | nil => intro v k _ _ _; rfl
  | cons b rest ih =>
    intro v k hb hlen hv
    simp only [List.foldl_cons]
    have hb0 : b < 2 := hb b (by simp)
    have hand : b &&& 1 = b := by rw [Nat.and_one_is_mod]; omega
    have hpow : (2:Nat) ^ (k + 1) ≤ 2 ^ 32 := by
      apply Nat.pow_le_pow_right (by norm_num)
      simp only [List.length_cons] at hlen
      omega
    have h32 : (2:Nat) ^ 32 = 4294967296 := by norm_num
    have hlt : 2 * v + b < 2 ^ (k + 1) := by rw [pow_succ]; omega
    have hstep : ((v <<< 1) ||| (b &&& 1)) % 4294967296 = 2 * v + b := by
      rw [hand, shiftOr_eq v b hb0]
      apply Nat.mod_eq_of_lt
      omega
    rw [hstep]
    exact ih (2 * v + b) (k + 1) (fun x hx => hb x (by simp [hx]))
      (by simp only [List.length_cons] at hlen; omega) hlt

theorem foldl_double_shift (l : List Nat) :
    ∀ v, l.foldl (fun x b => 2 * x + b) v =
      v * 2 ^ l.length + l.foldl (fun x b => 2 * x + b) 0 := by
  induction l with
  | nil => intro v; simp
  | cons b rest ih =>
    intro v
    simp only [List.foldl_cons, List.length_cons]
    rw [ih (2 * v + b), ih (2 * 0 + b), pow_succ]
    ring

set_option maxRecDepth 10000 in
theorem pure_fold_byte (a : Nat) (ha : a < 256) :
    (wordToBits a 8).foldl (fun x b => 2 * x + b) 0 = a := by
  have h : ∀ a2 < 256, (wordToBits a2 8).foldl (fun x b => 2 * x + b) 0 = a2 := by decide
  exact h a ha

theorem bitsToWord_two_bytes (hi lo : Nat) (hhi : hi < 256) (hlo : lo < 256) :
    bitsToWord (wordToBits hi 8 ++ wordToBits lo 8) = 256 * hi + lo := by
  unfold bitsToWord
  have hmem : ∀ b ∈ wordToBits hi 8 ++ wordToBits lo 8, b < 2 := by
    intro b hbm
    rcases List.mem_append.mp hbm with h | h
    · exact wordToBits_mem_lt hi 8 b h
    · exact wordToBits_mem_lt lo 8 b h
  have hlen : (wordToBits hi 8 ++ wordToBits lo 8).length + 16 ≤ 32 := by
    simp [length_wordToBits]
  rw [bitsToWord_pure _ 0 16 hmem hlen (by norm_num), List.foldl_append,
    foldl_double_shift (wordToBits lo 8), pure_fold_byte hi hhi,
    pure_fold_byte lo hlo, length_wordToBits]
  norm_num
  ring

theorem and_ff_lt (x : Nat) : x &&& 0xff < 256 := by
  have h := Nat.and_pow_two_sub_one_eq_mod x 8
  norm_num at h
  omega

theorem and_ff_of_lt (x : Nat) (h : x < 256) : x &&& 0xff = x := by
  have h2 := Nat.and_pow_two_sub_one_eq_mod x 8
  norm_num at h2
  omega

theorem shr8_and_ff_lt (c : Nat) : (c >>> 8) &&& 0xff < 256 := and_ff_lt _

theorem crc_bytes_recombine (c : Nat) (hc : c < 65536) :
    256 * ((c >>> 8) &&& 0xff) + (c &&& 0xff) = c := by
  have h1 : c >>> 8 = c / 256 := by
    rw [Nat.shiftRight_eq_div_pow]
  have h2 := Nat.and_pow_two_sub_one_eq_mod (c >>> 8) 8
  have h3 := Nat.and_pow_two_sub_one_eq_mod c 8
  norm_num at h2 h3
  rw [h2, h3, h1]
  omega



/-! ## The convolutional encoder through the trellis

`encodeFrom s bs` is the encoder restated in terms of the decoder's
transition table: starting from 6-bit trellis state `s`, each information
bit emits `(transO0, transO1)` and moves to `transNext`.  It is proved
equal to `convEncodeGo` (whose running `state` is the raw 7-bit shift
register) for bit-valued inputs. -/

def encodeFrom (s : Nat) : List Nat → List Nat
  | [] => []
  | b :: rest => transO0 s b :: transO1 s b :: encodeFrom (transNext s b) rest

theorem length_encodeFrom (bs : List Nat) :
    ∀ s, (encodeFrom s bs).length = 2 * bs.length := by
  induction bs with
  | nil => intro s; rfl
  | cons b rest ih =>
    intro s
    simp [encodeFrom, ih]
    ring

theorem convPush_lt (s b : Nat) : convPush s b < 128 := by
  unfold convPush
  have h : ((s <<< 1) ||| (b &&& 1)) &&& 0x7f ≤ 0x7f := Nat.and_le_right
  omega

theorem transNext_lt (s b : Nat) : transNext s b < 64 := by
  unfold transNext
  have h : (((s <<< 1) ||| b) &&& 0x7f) &&& 0x3f ≤ 0x3f := Nat.and_le_right
  omega

set_option maxRecDepth 20000 in
theorem convPush_bridge (s : Nat) (hs : s < 128) (c : Nat) (hc : c < 2) :
    parity (convPush s c &&& G0) = transO0 (s &&& 63) c ∧
    parity (convPush s c &&& G1) = transO1 (s &&& 63) c ∧
    convPush s c &&& 63 = transNext (s &&& 63) c := by
  have h : ∀ s2 < 128, ∀ c2 < 2,
      parity (convPush s2 c2 &&& G0) = transO0 (s2 &&& 63) c2 ∧
      parity (convPush s2 c2 &&& G1) = transO1 (s2 &&& 63) c2 ∧
      convPush s2 c2 &&& 63 = transNext (s2 &&& 63) c2 := by decide
  exact h s hs c hc

theorem convEncodeGo_eq (bs : List Nat) : ∀ s, s < 128 → (∀ b ∈ bs, b < 2) →
    convEncodeGo s bs = encodeFrom (s &&& 63) bs := by
  induction bs with
  | nil => intro s _ _; rfl
  | cons b rest ih =>
    intro s hs hb
    have hb0 : b < 2 := hb b (by simp)
    obtain ⟨h0, h1, h2⟩ := convPush_bridge s hs b hb0
    simp only [convEncodeGo, encodeFrom]
    rw [ih (convPush s b) (convPush_lt s b) (fun x hx => hb x (by simp [hx]))]
    rw [h0, h1, h2]

theorem convEncode_eq (bits : List Nat) (hb : ∀ b ∈ bits, b < 2) :
    convEncode bits = encodeFrom 0 (bits ++ List.replicate FLUSH_BITS 0) := by
  unfold convEncode
  have hmem : ∀ b ∈ bits ++ List.replicate FLUSH_BITS 0, b < 2 := by
    intro b hbm
    rcases List.mem_append.mp hbm with h | h
    · exact hb b h
    · rw [List.eq_of_mem_replicate h]; norm_num
  rw [convEncodeGo_eq _ 0 (by norm_num) hmem]
  norm_num

theorem length_convEncode (bits : List Nat) (hb : ∀ b ∈ bits, b < 2) :
    (convEncode bits).length = 2 * (bits.length + FLUSH_BITS) := by
  rw [convEncode_eq bits hb, length_encodeFrom]
  simp

set_option maxRecDepth 20000 in
theorem transNext_ne (s : Nat) (hs : s < 64) : transNext s 0 ≠ transNext s 1 := by
  have h : ∀ s2 < 64, transNext s2 0 ≠ transNext s2 1 := by decide
  exact h s hs

set_option maxRecDepth 20000 in
theorem transO0_ne (s : Nat) (hs : s < 64) : transO0 s 0 ≠ transO0 s 1 := by
  have h : ∀ s2 < 64, transO0 s2 0 ≠ transO0 s2 1 := by decide
  exact h s hs

set_option maxRecDepth 20000 in
theorem code_decompose (s b : Nat) (hs : s < 64) (hb : b < 2) :
    ((s <<< 1) ||| b) &&& 1 = b ∧ ((s <<< 1) ||| b) >>> 1 = s := by
  have h : ∀ s2 < 64, ∀ b2 < 2,
      ((s2 <<< 1) ||| b2) &&& 1 = b2 ∧ ((s2 <<< 1) ||| b2) >>> 1 = s2 := by decide
  exact h s hs b hb

set_option maxRecDepth 100000 in
theorem mem_stepPairs (s b : Nat) (hs : s < 64) (hb : b < 2) : (s, b) ∈ stepPairs := by
  have h : ∀ s2 < 64, ∀ b2 < 2, (s2, b2) ∈ stepPairs := by decide
  exact h s hs b hb

set_option maxRecDepth 100000 in
theorem stepPairs_mem_lt : ∀ p ∈ stepPairs, p.1 < 64 ∧ p.2 < 2 := by decide

set_option maxRecDepth 100000 in
theorem stepPairs_nodup : stepPairs.Nodup := by decide


/-! ## One trellis step: surviving-path analysis

`distOf r0 r1 p` is the branch Hamming distance of pair `p = (state, bit)`
against the received pair `(r0, r1)`.  The four `stepUpd_*` lemmas are the
exhaustive behaviours of the inner loop body. -/

def distOf (r0 r1 : Nat) (p : Nat × Nat) : Nat :=
  (if transO0 p.1 p.2 = r0 then 0 else 1) + (if transO1 p.1 p.2 = r1 then 0 else 1)

theorem getD_set_self2 {α : Type} (l : List α) (i : Nat) (v d : α) (h : i < l.length) :
    (l.set i v).getD i d = v := by
  simp [List.getD_eq_getElem?_getD, List.getElem?_set_self h]

theorem getD_set_ne2 {α : Type} (l : List α) (i j : Nat) (v d : α) (h : i ≠ j) :
    (l.set i v).getD j d = l.getD j d := by
  simp [List.getD_eq_getElem?_getD, List.getElem?_set_ne h]

theorem getD_replicate2 {α : Type} (k i : Nat) (a : α) :
    (List.replicate k a).getD i a = a := by
  rcases Nat.lt_or_ge i k with h | h
  · simp [List.getD_eq_getElem?_getD, List.getElem?_replicate_of_lt h]
  · have h2 : (List.replicate k a).length ≤ i := by simpa using h
    simp [List.getD_eq_getElem?_getD, List.getElem?_eq_none h2]

theorem stepUpd_skip (M : List (Option Nat)) (r0 r1 : Nat)
    (acc : List (Option Nat) × List Nat) (p : Nat × Nat)
    (hM : M.getD p.1 none = none) : stepUpd M r0 r1 acc p = acc := by
  simp only [List.getD_eq_getElem?_getD] at hM
  simp [stepUpd, hM]

theorem stepUpd_win_none (M : List (Option Nat)) (r0 r1 : Nat)
    (acc : List (Option Nat) × List Nat) (p : Nat × Nat) (base : Nat)
    (hM : M.getD p.1 none = some base)
    (hg : acc.1.getD (transNext p.1 p.2) none = none) :
    stepUpd M r0 r1 acc p =
      (acc.1.set (transNext p.1 p.2) (some (base + distOf r0 r1 p)),
       acc.2.set (transNext p.1 p.2) ((p.1 <<< 1) ||| p.2)) := by
  simp only [List.getD_eq_getElem?_getD] at hM hg
  simp [stepUpd, distOf, hM, hg]

theorem stepUpd_win_lt (M : List (Option Nat)) (r0 r1 : Nat)
    (acc : List (Option Nat) × List Nat) (p : Nat × Nat) (base m : Nat)
    (hM : M.getD p.1 none = some base)
    (hg : acc.1.getD (transNext p.1 p.2) none = some m)
    (hlt : base + distOf r0 r1 p < m) :
    stepUpd M r0 r1 acc p =
      (acc.1.set (transNext p.1 p.2) (some (base + distOf r0 r1 p)),
       acc.2.set (transNext p.1 p.2) ((p.1 <<< 1) ||| p.2)) := by
  simp only [distOf] at hlt
  simp only [List.getD_eq_getElem?_getD] at hM hg
  simp [stepUpd, distOf, hM, hg, hlt]

theorem stepUpd_keep (M : List (Option Nat)) (r0 r1 : Nat)
    (acc : List (Option Nat) × List Nat) (p : Nat × Nat) (base m : Nat)
    (hM : M.getD p.1 none = some base)
    (hg : acc.1.getD (transNext p.1 p.2) none = some m)
    (hge : ¬ base + distOf r0 r1 p < m) :
    stepUpd M r0 r1 acc p = acc := by
  simp only [distOf] at hge
  simp only [List.getD_eq_getElem?_getD] at hM hg
  simp [stepUpd, hM, hg, hge]

theorem stepUpd_lengths (M : List (Option Nat)) (r0 r1 : Nat)
    (acc : List (Option Nat) × List Nat) (p : Nat × Nat) :
    (stepUpd M r0 r1 acc p).1.length = acc.1.length ∧
    (stepUpd M r0 r1 acc p).2.length = acc.2.length := by
  cases hM : M.getD p.1 none with
  | none => rw [stepUpd_skip M r0 r1 acc p hM]; exact ⟨rfl, rfl⟩
  | some base =>
    cases hg : acc.1.getD (transNext p.1 p.2) none with
    | none => rw [stepUpd_win_none M r0 r1 acc p base hM hg]; simp
    | some m =>
      by_cases hlt : base + distOf r0 r1 p < m
      · rw [stepUpd_win_lt M r0 r1 acc p base m hM hg hlt]; simp
      · rw [stepUpd_keep M r0 r1 acc p base m hM hg hlt]; exact ⟨rfl, rfl⟩

theorem foldUpd_lengths (M : List (Option Nat)) (r0 r1 : Nat) (L : List (Nat × Nat)) :
    ∀ acc, ((L.foldl (stepUpd M r0 r1) acc).1.length = acc.1.length) ∧
           ((L.foldl (stepUpd M r0 r1) acc).2.length = acc.2.length) := by
  induction L with
  | nil => intro acc; exact ⟨rfl, rfl⟩
  | cons p rest ih =>
    intro acc
    simp only [List.foldl_cons]
    obtain ⟨h1, h2⟩ := ih (stepUpd M r0 r1 acc p)
    obtain ⟨h3, h4⟩ := stepUpd_lengths M r0 r1 acc p
    exact ⟨h1.trans h3, h2.trans h4⟩

/-- Index `n` holds no metric, or a metric of at least 1. -/
def OKn (n : Nat) (acc : List (Option Nat) × List Nat) : Prop :=
  acc.1.getD n none = none ∨ ∃ m, acc.1.getD n none = some m ∧ 1 ≤ m

theorem stepUpd_OKn (M : List (Option Nat)) (r0 r1 : Nat) (n : Nat) (hn : n < 64)
    (acc : List (Option Nat) × List Nat) (p : Nat × Nat)
    (hacc : acc.1.length = 64)
    (hp : transNext p.1 p.2 = n →
      ∀ base, M.getD p.1 none = some base → 1 ≤ base + distOf r0 r1 p)
    (hOK : OKn n acc) : OKn n (stepUpd M r0 r1 acc p) := by
  cases hM : M.getD p.1 none with
  | none => rw [stepUpd_skip M r0 r1 acc p hM]; exact hOK
  | some base =>
    by_cases ht : transNext p.1 p.2 = n
    · have hc1 : 1 ≤ base + distOf r0 r1 p := hp ht base hM
      cases hg : acc.1.getD (transNext p.1 p.2) none with
      | none =>
        rw [stepUpd_win_none M r0 r1 acc p base hM hg]
        right
        refine ⟨base + distOf r0 r1 p, ?_, hc1⟩
        rw [ht]
        exact getD_set_self2 _ _ _ _ (hacc ▸ hn)
      | some m =>
        by_cases hlt : base + distOf r0 r1 p < m
        · rw [stepUpd_win_lt M r0 r1 acc p base m hM hg hlt]
          right
          refine ⟨base + distOf r0 r1 p, ?_, hc1⟩
          rw [ht]
          exact getD_set_self2 _ _ _ _ (hacc ▸ hn)
        · rw [stepUpd_keep M r0 r1 acc p base m hM hg hlt]; exact hOK
    · cases hg : acc.1.getD (transNext p.1 p.2) none with
      | none =>
        rw [stepUpd_win_none M r0 r1 acc p base hM hg]
        unfold OKn at hOK ⊢
        rw [getD_set_ne2 _ _ _ _ _ ht]
        exact hOK
      | some m =>
        by_cases hlt : base + distOf r0 r1 p < m
        · rw [stepUpd_win_lt M r0 r1 acc p base m hM hg hlt]
          unfold OKn at hOK ⊢
          rw [getD_set_ne2 _ _ _ _ _ ht]
          exact hOK
        · rw [stepUpd_keep M r0 r1 acc p base m hM hg hlt]; exact hOK

theorem foldUpd_OKn (M : List (Option Nat)) (r0 r1 : Nat) (n : Nat) (hn : n < 64)
    (L : List (Nat × Nat)) :
    ∀ acc, acc.1.length = 64 →
      (∀ p ∈ L, transNext p.1 p.2 = n →
        ∀ base, M.getD p.1 none = some base → 1 ≤ base + distOf r0 r1 p) →
      OKn n acc → OKn n (L.foldl (stepUpd M r0 r1) acc) := by
  induction L with
  | nil => intro acc _ _ hOK; exact hOK
  | cons p rest ih =>
    intro acc hacc hps hOK
    simp only [List.foldl_cons]
    have hlen2 : (stepUpd M r0 r1 acc p).1.length = 64 :=
      (stepUpd_lengths M r0 r1 acc p).1.trans hacc
    exact ih (stepUpd M r0 r1 acc p) hlen2
      (fun q hq => hps q (by simp [hq]))
      (stepUpd_OKn M r0 r1 n hn acc p hacc (hps p (by simp)) hOK)

theorem stepUpd_keep0 (M : List (Option Nat)) (r0 r1 : Nat) (n : Nat)
    (acc : List (Option Nat) × List Nat) (p : Nat × Nat) (code : Nat)
    (h0 : acc.1.getD n none = some 0) (hdec : acc.2.getD n 0 = code) :
    (stepUpd M r0 r1 acc p).1.getD n none = some 0 ∧
    (stepUpd M r0 r1 acc p).2.getD n 0 = code := by
  cases hM : M.getD p.1 none with
  | none => rw [stepUpd_skip M r0 r1 acc p hM]; exact ⟨h0, hdec⟩
  | some base =>
    by_cases ht : transNext p.1 p.2 = n
    · have hg : acc.1.getD (transNext p.1 p.2) none = some 0 := by rw [ht]; exact h0
      rw [stepUpd_keep M r0 r1 acc p base 0 hM hg (by omega)]
      exact ⟨h0, hdec⟩
    · cases hg : acc.1.getD (transNext p.1 p.2) none with
      | none =>
        rw [stepUpd_win_none M r0 r1 acc p base hM hg]
        constructor
        · rw [getD_set_ne2 _ _ _ _ _ ht]; exact h0
        · rw [getD_set_ne2 _ _ _ _ _ ht]; exact hdec
      | some m =>
        by_cases hlt : base + distOf r0 r1 p < m
        · rw [stepUpd_win_lt M r0 r1 acc p base m hM hg hlt]
          constructor
          · rw [getD_set_ne2 _ _ _ _ _ ht]; exact h0
          · rw [getD_set_ne2 _ _ _ _ _ ht]; exact hdec
        · rw [stepUpd_keep M r0 r1 acc p base m hM hg hlt]; exact ⟨h0, hdec⟩

theorem foldUpd_keep0 (M : List (Option Nat)) (r0 r1 : Nat) (n : Nat)
    (L : List (Nat × Nat)) :
    ∀ acc code, acc.1.getD n none = some 0 → acc.2.getD n 0 = code →
      ((L.foldl (stepUpd M r0 r1) acc).1.getD n none = some 0 ∧
       (L.foldl (stepUpd M r0 r1) acc).2.getD n 0 = code) := by
  induction L with
  | nil => intro acc code h0 hdec; exact ⟨h0, hdec⟩
  | cons p rest ih =>
    intro acc code h0 hdec
    simp only [List.foldl_cons]
    obtain ⟨h1, h2⟩ := stepUpd_keep0 M r0 r1 n acc p code h0 hdec
    exact ih (stepUpd M r0 r1 acc p) code h1 h2


/-- The forward-pass invariant: metric array of length 64, the true path
state holds metric 0, every other state holds either no metric (`INF`) or
a metric of at least 1. -/
def GoodM (M : List (Option Nat)) (s : Nat) : Prop :=
  M.length = 64 ∧ M.getD s none = some 0 ∧
  ∀ t, t < 64 → t ≠ s → ∀ m, M.getD t none = some m → 1 ≤ m

theorem viterbiStep_correct (M : List (Option Nat)) (s b : Nat)
    (hs : s < 64) (hb : b < 2) (hM : GoodM M s) :
    GoodM (viterbiStep M (transO0 s b) (transO1 s b)).1 (transNext s b) ∧
    (viterbiStep M (transO0 s b) (transO1 s b)).2.getD (transNext s b) 0 =
      (s <<< 1) ||| b := by
  obtain ⟨hlen, h0, hge⟩ := hM
  have hnlt : transNext s b < 64 := transNext_lt s b
  have hdist0 : distOf (transO0 s b) (transO1 s b) (s, b) = 0 := by
    simp [distOf]
  have hothers : ∀ p ∈ stepPairs, p ≠ (s, b) → transNext p.1 p.2 = transNext s b →
      ∀ base, M.getD p.1 none = some base →
        1 ≤ base + distOf (transO0 s b) (transO1 s b) p := by
    intro p hp hne ht base hMp
    obtain ⟨hp1, hp2⟩ := stepPairs_mem_lt p hp
    by_cases hps : p.1 = s
    · exfalso
      have hpb : p.2 ≠ b := by
        intro h
        apply hne
        cases p
        simp_all
      rw [hps] at ht
      have h2 : p.2 = 0 ∨ p.2 = 1 := by omega
      have h3 : b = 0 ∨ b = 1 := by omega
      rcases h2 with h2 | h2 <;> rcases h3 with h3 | h3
      · exact hpb (h2.trans h3.symm)
      · rw [h2, h3] at ht; exact transNext_ne s hs ht
      · rw [h2, h3] at ht; exact transNext_ne s hs ht.symm
      · exact hpb (h2.trans h3.symm)
    · have := hge p.1 hp1 hps base hMp
      omega
  have hall : ∀ n, n < 64 → n ≠ transNext s b → ∀ p ∈ stepPairs,
      transNext p.1 p.2 = n → ∀ base, M.getD p.1 none = some base →
        1 ≤ base + distOf (transO0 s b) (transO1 s b) p := by
    intro n hn hne p hp ht base hMp
    obtain ⟨hp1, hp2⟩ := stepPairs_mem_lt p hp
    by_cases hps : p.1 = s
    · have hpb : p.2 ≠ b := by
        intro h
        apply hne
        rw [← ht, hps, h]
      have hdiff : transO0 p.1 p.2 ≠ transO0 s b := by
        rw [hps]
        have h2 : p.2 = 0 ∨ p.2 = 1 := by omega
        have h3 : b = 0 ∨ b = 1 := by omega
        rcases h2 with h2 | h2 <;> rcases h3 with h3 | h3
        · exact absurd (h2.trans h3.symm) hpb
        · rw [h2, h3]; exact transO0_ne s hs
        · rw [h2, h3]; exact (transO0_ne s hs).symm
        · exact absurd (h2.trans h3.symm) hpb
      have hd1 : 1 ≤ distOf (transO0 s b) (transO1 s b) p := by
        simp only [distOf]
        rw [if_neg hdiff]
        omega
      omega
    · have := hge p.1 hp1 hps base hMp
      omega
  obtain ⟨L1, L2, hLL⟩ := List.append_of_mem (mem_stepPairs s b hs hb)
  have hnodup := stepPairs_nodup
  rw [hLL, List.nodup_append] at hnodup
  obtain ⟨hn1, hn2, hdisj⟩ := hnodup
  have hnotin1 : (s, b) ∉ L1 := fun hin => (hdisj hin) (by simp)
  have hnotin2 : (s, b) ∉ L2 := (List.nodup_cons.mp hn2).1
  have hmemS : ∀ p, p ∈ L1 ∨ p ∈ L2 → p ∈ stepPairs := by
    intro p hp
    rw [hLL]
    rcases hp with h | h
    · exact List.mem_append.mpr (Or.inl h)
    · exact List.mem_append.mpr (Or.inr (by simp [h]))
  unfold viterbiStep
  rw [hLL, List.foldl_append, List.foldl_cons]
  have hOK0 : OKn (transNext s b) ((List.replicate 64 none, List.replicate 64 0) :
      List (Option Nat) × List Nat) :=
    Or.inl (getD_replicate2 64 _ none)
  have hlen1 := foldUpd_lengths M (transO0 s b) (transO1 s b) L1
    (List.replicate 64 none, List.replicate 64 0)
  have hacc1len : (L1.foldl (stepUpd M (transO0 s b) (transO1 s b))
      (List.replicate 64 none, List.replicate 64 0)).1.length = 64 := by
    rw [hlen1.1]
    simp
  have hacc1len2 : (L1.foldl (stepUpd M (transO0 s b) (transO1 s b))
      (List.replicate 64 none, List.replicate 64 0)).2.length = 64 := by
    rw [hlen1.2]
    simp
  have hOK1 : OKn (transNext s b)
      (L1.foldl (stepUpd M (transO0 s b) (transO1 s b))
        (List.replicate 64 none, List.replicate 64 0)) := by
    apply foldUpd_OKn M _ _ _ hnlt L1 _ (by simp) ?_ hOK0
    intro p hpL1 ht base hMp
    exact hothers p (hmemS p (Or.inl hpL1)) (fun he => hnotin1 (he ▸ hpL1)) ht base hMp
  have hmid : (stepUpd M (transO0 s b) (transO1 s b)
        (L1.foldl (stepUpd M (transO0 s b) (transO1 s b))
          (List.replicate 64 none, List.replicate 64 0)) (s, b)).1.getD
        (transNext s b) none = some 0 ∧
      (stepUpd M (transO0 s b) (transO1 s b)
        (L1.foldl (stepUpd M (transO0 s b) (transO1 s b))
          (List.replicate 64 none, List.replicate 64 0)) (s, b)).2.getD
        (transNext s b) 0 = (s <<< 1) ||| b := by
    rcases hOK1 with hnone | ⟨m, hm, hm1⟩
    · rw [stepUpd_win_none M (transO0 s b) (transO1 s b) _ (s, b) 0 h0 hnone]
      constructor
      · have hset := getD_set_self2
          (L1.foldl (stepUpd M (transO0 s b) (transO1 s b))
            (List.replicate 64 none, List.replicate 64 0)).1
          (transNext s b) (some (0 + distOf (transO0 s b) (transO1 s b) (s, b)))
          none (by rw [hacc1len]; exact hnlt)
        rw [hset, hdist0]
      · exact getD_set_self2 _ _ _ _ (by rw [hacc1len2]; exact hnlt)
    · have hlt0 : 0 + distOf (transO0 s b) (transO1 s b) (s, b) < m := by
        rw [hdist0]; omega
      rw [stepUpd_win_lt M (transO0 s b) (transO1 s b) _ (s, b) 0 m h0 hm hlt0]
      constructor
      · have hset := getD_set_self2
          (L1.foldl (stepUpd M (transO0 s b) (transO1 s b))
            (List.replicate 64 none, List.replicate 64 0)).1
          (transNext s b) (some (0 + distOf (transO0 s b) (transO1 s b) (s, b)))
          none (by rw [hacc1len]; exact hnlt)
        rw [hset, hdist0]
      · exact getD_set_self2 _ _ _ _ (by rw [hacc1len2]; exact hnlt)
  have hfin := foldUpd_keep0 M (transO0 s b) (transO1 s b) (transNext s b) L2 _
    ((s <<< 1) ||| b) hmid.1 hmid.2
  have hmidlen := stepUpd_lengths M (transO0 s b) (transO1 s b)
    (L1.foldl (stepUpd M (transO0 s b) (transO1 s b))
      (List.replicate 64 none, List.replicate 64 0)) (s, b)
  have hfinlen := foldUpd_lengths M (transO0 s b) (transO1 s b) L2
    (stepUpd M (transO0 s b) (transO1 s b)
      (L1.foldl (stepUpd M (transO0 s b) (transO1 s b))
        (List.replicate 64 none, List.replicate 64 0)) (s, b))
  refine ⟨⟨?_, hfin.1, ?_⟩, hfin.2⟩
  · rw [hfinlen.1, hmidlen.1, hacc1len]
  · intro t htlt htne m2 hm2
    have hOKt : OKn t
        (L2.foldl (stepUpd M (transO0 s b) (transO1 s b))
          (stepUpd M (transO0 s b) (transO1 s b)
            (L1.foldl (stepUpd M (transO0 s b) (transO1 s b))
              (List.replicate 64 none, List.replicate 64 0)) (s, b))) := by
      apply foldUpd_OKn M _ _ _ htlt L2 _ (by rw [hmidlen.1, hacc1len]) ?_ ?_
      · intro p hpL2 ht base hMp
        exact hall t htlt (fun he => htne he) p (hmemS p (Or.inr hpL2)) ht base hMp
      · apply stepUpd_OKn M _ _ _ htlt _ (s, b) hacc1len ?_ ?_
        · intro hteq
          exact absurd hteq.symm htne
        · apply foldUpd_OKn M _ _ _ htlt L1 _ (by simp) ?_
            (Or.inl (getD_replicate2 64 _ none))
          intro p hpL1 ht base hMp
          exact hall t htlt (fun he => htne he) p (hmemS p (Or.inl hpL1)) ht base hMp
    rcases hOKt with hnone | ⟨m3, hm3, hm31⟩
    · rw [hnone] at hm2
      cases hm2
    · rw [hm3] at hm2
      have : m3 = m2 := by injection hm2
      omega


/-! ## Terminal-state selection picks the true path -/

theorem ltOpt_some_zero (x : Option Nat) : ltOpt x (some 0) = false := by
  cases x with
  | none => rfl
  | some a => simp [ltOpt]

theorem ltOpt_zero_of_bad (o : Option Nat)
    (h : o = none ∨ ∃ m, o = some m ∧ 1 ≤ m) : ltOpt (some 0) o = true := by
  rcases h with h | ⟨m, hm, hm1⟩
  · rw [h]; rfl
  · rw [hm]
    simp [ltOpt]
    omega

theorem bfold_zero (M : List (Option Nat)) (l : List Nat) :
    ∀ acc : Nat × Option Nat, acc.2 = some 0 →
      l.foldl (fun acc2 t =>
        if ltOpt (M.getD t none) acc2.2 then (t, M.getD t none) else acc2) acc = acc := by
  induction l with
  | nil => intro acc _; rfl
  | cons t rest ih =>
    intro acc h
    simp only [List.foldl_cons, h, ltOpt_some_zero]
    simp only [Bool.false_eq_true, if_false]
    exact ih acc h

theorem bfold_bad (M : List (Option Nat)) (l : List Nat)
    (hl : ∀ t ∈ l, M.getD t none = none ∨ ∃ m, M.getD t none = some m ∧ 1 ≤ m) :
    ∀ acc : Nat × Option Nat, (acc.2 = none ∨ ∃ m, acc.2 = some m ∧ 1 ≤ m) →
      ((l.foldl (fun acc2 t =>
          if ltOpt (M.getD t none) acc2.2 then (t, M.getD t none) else acc2) acc).2 = none ∨
        ∃ m, (l.foldl (fun acc2 t =>
          if ltOpt (M.getD t none) acc2.2 then (t, M.getD t none) else acc2) acc).2 = some m ∧
          1 ≤ m) := by
  induction l with
  | nil => intro acc h; exact h
  | cons t rest ih =>
    intro acc h
    simp only [List.foldl_cons]
    by_cases hc : ltOpt (M.getD t none) acc.2 = true
    · rw [if_pos hc]
      exact ih (fun q hq => hl q (by simp [hq])) (t, M.getD t none) (hl t (by simp))
    · rw [if_neg hc]
      exact ih (fun q hq => hl q (by simp [hq])) acc h

theorem bestStateOf_eq (M : List (Option Nat)) (s : Nat) (hs : s < 64) (hM : GoodM M s) :
    bestStateOf M = s := by
  obtain ⟨hlen, h0, hge⟩ := hM
  have hbad : ∀ t, t < 64 → t ≠ s →
      (M.getD t none = none ∨ ∃ m, M.getD t none = some m ∧ 1 ≤ m) := by
    intro t ht hne
    cases hg : M.getD t none with
    | none => exact Or.inl rfl
    | some m => exact Or.inr ⟨m, rfl, hge t ht hne m hg⟩
  unfold bestStateOf
  by_cases hs0 : s = 0
  · subst hs0
    rw [h0, bfold_zero M (List.range 64) (0, some 0) rfl]
  · have h64 : (64 : Nat) = s + (64 - s) := by omega
    have hks : 64 - s = (64 - s - 1) + 1 := by omega
    rw [h64, List.range_add, List.foldl_append, hks, List.range_succ_eq_map]
    simp only [List.map_cons, List.foldl_cons, Nat.add_zero]
    have hbad1 : ∀ t ∈ List.range s,
        M.getD t none = none ∨ ∃ m, M.getD t none = some m ∧ 1 ≤ m := by
      intro t ht
      have htlt : t < s := List.mem_range.mp ht
      exact hbad t (by omega) (by omega)
    have hacc1 := bfold_bad M (List.range s) hbad1 (0, M.getD 0 none)
      (hbad 0 (by omega) (Ne.symm hs0))
    rw [h0, if_pos (ltOpt_zero_of_bad _ hacc1)]
    rw [bfold_zero M _ (s, some 0) rfl]


/-! ## The full forward pass followed by traceback recovers the input -/

theorem goodM_init : GoodM initMetrics 0 := by
  refine ⟨by simp [initMetrics], ?_, ?_⟩
  · unfold initMetrics
    rw [getD_set_self2 _ _ _ _ (by simp)]
  · intro t ht hne m hm
    unfold initMetrics at hm
    rw [getD_set_ne2 _ _ _ _ _ (Ne.symm hne), getD_replicate2] at hm
    exact absurd hm (by simp)

theorem foldl_transNext_lt (bs : List Nat) :
    ∀ s, s < 64 → bs.foldl transNext s < 64 := by
  induction bs with
  | nil => intro s hs; exact hs
  | cons b rest ih =>
    intro s _
    exact ih (transNext s b) (transNext_lt s b)

theorem viterbiFwd_correct (bs : List Nat) :
    ∀ M s, (∀ b ∈ bs, b < 2) → s < 64 → GoodM M s →
      GoodM (viterbiForward M (encodeFrom s bs) bs.length).1 (bs.foldl transNext s) ∧
      ∀ rest acc,
        tracebackGo ((viterbiForward M (encodeFrom s bs) bs.length).2.reverse ++ rest)
          (bs.foldl transNext s) acc = tracebackGo rest s (bs ++ acc) := by
  induction bs with
  | nil =>
    intro M s _ _ hM
    exact ⟨hM, fun rest acc => rfl⟩
  | cons b bs ih =>
    intro M s hb hs hM
    have hb0 : b < 2 := hb b (by simp)
    have hrest : ∀ x ∈ bs, x < 2 := fun x hx => hb x (by simp [hx])
    have hstep := viterbiStep_correct M s b hs hb0 hM
    have hnext : transNext s b < 64 := transNext_lt s b
    have hih := ih (viterbiStep M (transO0 s b) (transO1 s b)).1 (transNext s b)
      hrest hnext hstep.1
    have hunf : viterbiForward M (encodeFrom s (b :: bs)) (b :: bs).length =
        ((viterbiForward (viterbiStep M (transO0 s b) (transO1 s b)).1
            (encodeFrom (transNext s b) bs) bs.length).1,
         (viterbiStep M (transO0 s b) (transO1 s b)).2 ::
           (viterbiForward (viterbiStep M (transO0 s b) (transO1 s b)).1
             (encodeFrom (transNext s b) bs) bs.length).2) := by
      simp [encodeFrom, viterbiForward, List.getD_cons_zero, List.getD_cons_succ]
    rw [List.foldl_cons]
    constructor
    · rw [hunf]
      exact hih.1
    · intro rest acc
      rw [hunf]
      simp only [List.reverse_cons, List.append_assoc]
      rw [hih.2 ([(viterbiStep M (transO0 s b) (transO1 s b)).2] ++ rest) acc]
      simp only [List.singleton_append, tracebackGo]
      rw [hstep.2]
      obtain ⟨hc1, hc2⟩ := code_decompose s b hs hb0
      rw [hc1, hc2]
      simp

theorem viterbi_encodeFrom (bs : List Nat) (hb : ∀ b ∈ bs, b < 2) :
    viterbiDecode (encodeFrom 0 bs) = bs := by
  cases bs with
  | nil => rfl
  | cons b rest =>
    have hlen : (encodeFrom 0 (b :: rest)).length = 2 * (rest.length + 1) := by
      rw [length_encodeFrom]
      simp
    have hmod : (encodeFrom 0 (b :: rest)).length % 2 = 0 := by
      rw [hlen]
      omega
    have hnotlt : ¬ ((encodeFrom 0 (b :: rest)).length -
        (encodeFrom 0 (b :: rest)).length % 2 < 2) := by
      rw [hlen]
      omega
    have hsteps : ((encodeFrom 0 (b :: rest)).length -
        (encodeFrom 0 (b :: rest)).length % 2) / 2 = (b :: rest).length := by
      rw [hlen]
      simp only [List.length_cons]
      omega
    simp only [viterbiDecode]
    rw [if_neg hnotlt, hsteps]
    obtain ⟨hG, hT⟩ := viterbiFwd_correct (b :: rest) initMetrics 0 hb
      (by norm_num) goodM_init
    rw [bestStateOf_eq _ _ (foldl_transNext_lt (b :: rest) 0 (by norm_num)) hG]
    have htb := hT [] []
    simp only [List.append_nil, tracebackGo] at htb
    exact htb

/-- C2: for every bit sequence of length at most 2048, the Viterbi decoder
applied to the noiseless output of the convolutional encoder returns the
input bits followed by the `FLUSH_BITS = K - 1 = 6` decoded flush zeros, so
after the caller discards those flush bits the original bits are recovered:
`ViterbiDecode(ConvEncode(bits)) == bits`. -/
theorem c2_viterbi_roundtrip (bits : List Nat) (hb : ∀ b ∈ bits, b < 2)
    (hlen : bits.length ≤ 2048) :
    viterbiDecode (convEncode bits) = bits ++ List.replicate FLUSH_BITS 0 ∧
    (viterbiDecode (convEncode bits)).take bits.length = bits := by
  have hmem : ∀ b ∈ bits ++ List.replicate FLUSH_BITS 0, b < 2 := by
    intro b hbm
    rcases List.mem_append.mp hbm with h | h
    · exact hb b h
    · rw [List.eq_of_mem_replicate h]
      norm_num
  have h1 : viterbiDecode (convEncode bits) = bits ++ List.replicate FLUSH_BITS 0 := by
    rw [convEncode_eq bits hb, viterbi_encodeFrom _ hmem]
  refine ⟨h1, ?_⟩
  rw [h1, List.take_left' rfl]

theorem c2_viterbi_roundtrip_witness :
    (∀ b ∈ [1, 0, 1, 1], b < 2) ∧ [1, 0, 1, 1].length ≤ 2048 ∧
    (viterbiDecode (convEncode [1, 0, 1, 1]) =
      [1, 0, 1, 1] ++ List.replicate FLUSH_BITS 0 ∧
     (viterbiDecode (convEncode [1, 0, 1, 1])).take [1, 0, 1, 1].length =
      [1, 0, 1, 1]) :=
  ⟨by decide, by norm_num, c2_viterbi_roundtrip [1, 0, 1, 1] (by decide) (by norm_num)⟩


/-! ## Decoding a complete well-formed frame buffer

The generic lemmas below run `tryDecodePlain` / `tryDecodeFrame` on a
buffer of the exact shape produced by `buildFrameBits`:
`(w1 ++ w2) ++ (P ++ (w3 ++ w4))` — 8 length-field bits, 8 version bits,
the payload bits, then the two CRC bytes. -/

theorem isEmpty_false_of_length_pos {α : Type} (l : List α) (h : 0 < l.length) :
    l.isEmpty = false := by
  cases l with
  | nil => simp at h
  | cons a t => rfl

theorem tryDecodePlain_generic (len flags cval : Nat) (payload w1 w2 P w3 w4 : List Nat)
    (hw1l : w1.length = 8) (hw2l : w2.length = 8) (hPl : P.length = len * 8)
    (hCl : (w3 ++ w4).length = 16) (hlen : len < 256)
    (hbb1 : bitsToByte w1 = len) (hbb2 : bitsToByte w2 = flags)
    (hrecv : bitsToWord (w3 ++ w4) = cval)
    (hdata : bitsToBytes ((w1 ++ w2) ++ P) = [len, flags] ++ payload)
    (hcrc : crc16 ([len, flags] ++ payload) = cval)
    (hpay : bitsToBytes P = payload) :
    tryDecodePlain ⟨(w1 ++ w2) ++ (P ++ (w3 ++ w4)), [], true⟩ =
      (⟨[], [], false⟩, [RxEvent.frameText payload len flags]) := by
  have hCl2 : w3.length + w4.length = 16 := by simpa using hCl
  have hBBl : ((w1 ++ w2) ++ (P ++ (w3 ++ w4))).length = 16 + len * 8 + 16 := by
    simp only [List.length_append, hw1l, hw2l, hPl]
    omega
  have htake8 : ((w1 ++ w2) ++ (P ++ (w3 ++ w4))).take 8 = w1 := by
    rw [List.append_assoc]
    exact List.take_left' hw1l
  have hdrop8 : ((w1 ++ w2) ++ (P ++ (w3 ++ w4))).drop 8 = w2 ++ (P ++ (w3 ++ w4)) := by
    rw [List.append_assoc]
    exact List.drop_left' hw1l
  have hd8t8 : (((w1 ++ w2) ++ (P ++ (w3 ++ w4))).drop 8).take 8 = w2 := by
    rw [hdrop8]
    exact List.take_left' hw2l
  have hdrop16 : ((w1 ++ w2) ++ (P ++ (w3 ++ w4))).drop 16 = P ++ (w3 ++ w4) :=
    List.drop_left' (by simp [hw1l, hw2l])
  have htakeP : (P ++ (w3 ++ w4)).take (len * 8) = P := List.take_left' hPl
  have hdropMid : ((w1 ++ w2) ++ (P ++ (w3 ++ w4))).drop (16 + len * 8) = w3 ++ w4 := by
    rw [← List.append_assoc]
    exact List.drop_left' (by simp only [List.length_append, hw1l, hw2l, hPl]; try omega)
  have htakeC : (w3 ++ w4).take 16 = w3 ++ w4 := by
    rw [← hCl]
    exact List.take_length _
  have htakeMid : ((w1 ++ w2) ++ (P ++ (w3 ++ w4))).take (16 + len * 8) =
      (w1 ++ w2) ++ P := by
    rw [← List.append_assoc]
    exact List.take_left' (by simp only [List.length_append, hw1l, hw2l, hPl]; try omega)
  simp only [tryDecodePlain]
  rw [htake8, hbb1, hd8t8, hbb2, hdrop16, htakeP, hdropMid, htakeC, hrecv,
    htakeMid, hdata, hcrc, hpay]
  rw [if_neg (show ¬((true : Bool) = false) by simp),
    if_neg (show ¬(((w1 ++ w2) ++ (P ++ (w3 ++ w4))).length < 16) by omega),
    if_neg (show ¬(255 < len) by omega),
    if_neg (show ¬(((w1 ++ w2) ++ (P ++ (w3 ++ w4))).length < 16 + len * 8 + 16) by omega),
    if_pos rfl]
  rfl

theorem tryDecodeFrame_generic (len flags cval : Nat)
    (payload bb w1 w2 P w3 w4 : List Nat) (sy : Bool)
    (hw1l : w1.length = 8) (hw2l : w2.length = 8) (hPl : P.length = len * 8)
    (hCl : (w3 ++ w4).length = 16) (hlen : len < 256)
    (hmem : ∀ b ∈ (w1 ++ w2) ++ (P ++ (w3 ++ w4)), b < 2)
    (hbb1 : bitsToByte w1 = len) (hbb2 : bitsToByte w2 = flags)
    (hrecv : bitsToWord (w3 ++ w4) = cval)
    (hdata : bitsToBytes ((w1 ++ w2) ++ P) = [len, flags] ++ payload)
    (hcrc : crc16 ([len, flags] ++ payload) = cval)
    (hpay : bitsToBytes P = payload) :
    tryDecodeFrame ⟨bb, convEncode ((w1 ++ w2) ++ (P ++ (w3 ++ w4))), sy⟩ =
      (⟨[], [], false⟩, [RxEvent.frameText payload len flags]) := by
  have hIBl : ((w1 ++ w2) ++ (P ++ (w3 ++ w4))).length = 16 + len * 8 + 16 := by
    simp only [List.length_append, hw1l, hw2l, hPl]
    have hCl2 : w3.length + w4.length = 16 := by simpa using hCl
    omega
  have hmem2 : ∀ b ∈ ((w1 ++ w2) ++ (P ++ (w3 ++ w4))) ++ List.replicate FLUSH_BITS 0,
      b < 2 := by
    intro b hbm
    rcases List.mem_append.mp hbm with h | h
    · exact hmem b h
    · rw [List.eq_of_mem_replicate h]
      norm_num
  have hdec : viterbiDecode (convEncode ((w1 ++ w2) ++ (P ++ (w3 ++ w4)))) =
      ((w1 ++ w2) ++ (P ++ (w3 ++ w4))) ++ List.replicate FLUSH_BITS 0 := by
    rw [convEncode_eq _ hmem, viterbi_encodeFrom _ hmem2]
  have hCBl : (convEncode ((w1 ++ w2) ++ (P ++ (w3 ++ w4)))).length =
      2 * (((w1 ++ w2) ++ (P ++ (w3 ++ w4))).length + FLUSH_BITS) :=
    length_convEncode _ hmem
  have hRl : (((w1 ++ w2) ++ (P ++ (w3 ++ w4))) ++ List.replicate FLUSH_BITS 0).length =
      ((w1 ++ w2) ++ (P ++ (w3 ++ w4))).length + FLUSH_BITS := by
    simp only [List.length_append, List.length_replicate]
    try omega
  have hF : FLUSH_BITS = 6 := rfl
  have htakeInfo : (((w1 ++ w2) ++ (P ++ (w3 ++ w4))) ++ List.replicate FLUSH_BITS 0).take
      ((((w1 ++ w2) ++ (P ++ (w3 ++ w4))) ++ List.replicate FLUSH_BITS 0).length -
        FLUSH_BITS) = (w1 ++ w2) ++ (P ++ (w3 ++ w4)) := by
    rw [hRl, Nat.add_sub_cancel]
    exact List.take_left' rfl
  have htake8 : ((w1 ++ w2) ++ (P ++ (w3 ++ w4))).take 8 = w1 := by
    rw [List.append_assoc]
    exact List.take_left' hw1l
  have hdrop8 : ((w1 ++ w2) ++ (P ++ (w3 ++ w4))).drop 8 = w2 ++ (P ++ (w3 ++ w4)) := by
    rw [List.append_assoc]
    exact List.drop_left' hw1l
  have hd8t8 : (((w1 ++ w2) ++ (P ++ (w3 ++ w4))).drop 8).take 8 = w2 := by
    rw [hdrop8]
    exact List.take_left' hw2l
  have htakeCB : (convEncode ((w1 ++ w2) ++ (P ++ (w3 ++ w4)))).take
      (2 * (16 + len * 8 + 16 + FLUSH_BITS)) =
      convEncode ((w1 ++ w2) ++ (P ++ (w3 ++ w4))) := by
    have h : (convEncode ((w1 ++ w2) ++ (P ++ (w3 ++ w4)))).length =
        2 * (16 + len * 8 + 16 + FLUSH_BITS) := by
      rw [hCBl, hIBl]
    rw [← h]
    exact List.take_length _
  have htakeInfo2 : (((w1 ++ w2) ++ (P ++ (w3 ++ w4))) ++
      List.replicate FLUSH_BITS 0).take (16 + len * 8 + 16) =
      (w1 ++ w2) ++ (P ++ (w3 ++ w4)) := List.take_left' hIBl
  have hdrop16 : ((w1 ++ w2) ++ (P ++ (w3 ++ w4))).drop 16 = P ++ (w3 ++ w4) :=
    List.drop_left' (by simp [hw1l, hw2l])
  have htakeP : (P ++ (w3 ++ w4)).take (len * 8) = P := List.take_left' hPl
  have hdropMid : ((w1 ++ w2) ++ (P ++ (w3 ++ w4))).drop (16 + len * 8) = w3 ++ w4 := by
    rw [← List.append_assoc]
    exact List.drop_left' (by simp only [List.length_append, hw1l, hw2l, hPl]; try omega)
  have htakeMid : ((w1 ++ w2) ++ (P ++ (w3 ++ w4))).take (16 + len * 8) =
      (w1 ++ w2) ++ P := by
    rw [← List.append_assoc]
    exact List.take_left' (by simp only [List.length_append, hw1l, hw2l, hPl]; try omega)
  simp only [tryDecodeFrame]
  rw [hdec, htakeInfo, htake8, hbb1, hd8t8, hbb2, htakeCB, hdec, htakeInfo2,
    hdrop16, htakeP, hdropMid, hrecv, htakeMid, hdata, hcrc, hpay]
  have hc1 : ¬((convEncode ((w1 ++ w2) ++ (P ++ (w3 ++ w4)))).length <
      2 * (16 + 16 + FLUSH_BITS)) := by omega
  have hc2 : ¬((((w1 ++ w2) ++ (P ++ (w3 ++ w4))) ++
      List.replicate FLUSH_BITS 0).length = 0) := by omega
  have hc3 : ¬((((w1 ++ w2) ++ (P ++ (w3 ++ w4))) ++
      List.replicate FLUSH_BITS 0).length ≤ FLUSH_BITS) := by omega
  have hc4 : ¬(((w1 ++ w2) ++ (P ++ (w3 ++ w4))).length < 16) := by omega
  have hc5 : ¬(255 < len) := by omega
  have hc6 : ¬((convEncode ((w1 ++ w2) ++ (P ++ (w3 ++ w4)))).length <
      2 * (16 + len * 8 + 16 + FLUSH_BITS)) := by omega
  have hc7 : ¬((((w1 ++ w2) ++ (P ++ (w3 ++ w4))) ++
      List.replicate FLUSH_BITS 0).length = 0 ∨
    (((w1 ++ w2) ++ (P ++ (w3 ++ w4))) ++ List.replicate FLUSH_BITS 0).length <
      16 + len * 8 + 16 + FLUSH_BITS) := by omega
  rw [if_neg hc1, if_neg hc2, if_neg hc3, if_neg hc4, if_neg hc5, if_neg hc6,
    if_neg hc7, if_pos rfl]
  rfl


/-! ## Feeding the preamble-plus-sync batch, then the body batch -/

set_option maxRecDepth 100000 in
theorem sync_batch_plain :
    handleBits false initialSyncState (buildPreambleBits ++ wordToBits SYNC_WORD 32) =
      (⟨[], [], true⟩, []) := by decide

set_option maxRecDepth 100000 in
theorem sync_batch_fec :
    handleBits true initialSyncState (buildPreambleBits ++ wordToBits SYNC_WORD 32) =
      (⟨[], [], true⟩, []) := by decide

theorem handleBits_synced_plain (body : List Nat) (hne : body.isEmpty = false) :
    handleBits false ⟨[], [], true⟩ body = tryDecodePlain ⟨body, [], true⟩ := by
  simp [handleBits, handleBitsPlain, hne]

theorem handleBits_synced_fec (body : List Nat) (hne : body.isEmpty = false) :
    handleBits true ⟨[], [], true⟩ body = tryDecodeFrame ⟨body, body, true⟩ := by
  simp [handleBits, handleBitsFec, hne]

theorem processBatches_two (useFEC : Bool) (b1 b2 : List Nat) :
    processBatches useFEC [b1, b2] =
      ((handleBits useFEC (handleBits useFEC initialSyncState b1).1 b2).1,
        (handleBits useFEC initialSyncState b1).2 ++
        (handleBits useFEC (handleBits useFEC initialSyncState b1).1 b2).2) := by
  simp [processBatches]

theorem processBatches_plain2 (b2 : List Nat) (hne : b2.isEmpty = false) :
    processBatches false [buildPreambleBits ++ wordToBits SYNC_WORD 32, b2] =
      tryDecodePlain ⟨b2, [], true⟩ := by
  rw [processBatches_two, sync_batch_plain]
  simp [handleBits_synced_plain b2 hne]

theorem processBatches_fec2 (b2 : List Nat) (hne : b2.isEmpty = false) :
    processBatches true [buildPreambleBits ++ wordToBits SYNC_WORD 32, b2] =
      tryDecodeFrame ⟨b2, b2, true⟩ := by
  rw [processBatches_two, sync_batch_fec]
  simp [handleBits_synced_fec b2 hne]


/-- C1: frame round-trip.  For every payload of at most 255 bytes,
`buildFrameBits` succeeds, and feeding the produced bit sequence to the
synchronizer (as one batch holding the preamble and sync word, then one
batch holding the body) yields exactly one received frame carrying the
original payload, its length and the version — on both the FEC-off and
the FEC-on path. -/
theorem c1_frame_roundtrip (payload : List Nat) (withFEC : Bool)
    (hb : ∀ b ∈ payload, b < 256) (hlen : payload.length ≤ 255) :
    ∃ fb, buildFrameBits payload withFEC = some fb ∧
      (processBatches withFEC [fb.take 112, fb.drop 112]).2 =
        [RxEvent.frameText payload payload.length VERSION] := by
  have hLlt : payload.length < 256 := by omega
  have hand : payload.length &&& 0xff = payload.length := and_ff_of_lt _ hLlt
  have h112 : (buildPreambleBits ++ wordToBits SYNC_WORD 32).length = 112 := by
    simp [buildPreambleBits, PREAMBLE_BITS, length_wordToBits]
  have hw1l := length_wordToBits payload.length 8
  have hw2l := length_wordToBits VERSION 8
  have hPl : (bytesToBits payload).length = payload.length * 8 := by
    rw [length_bytesToBits]
    ring
  have hCl : (wordToBits ((crc16 ([payload.length, VERSION] ++ payload) >>> 8) &&& 0xff) 8 ++
      wordToBits (crc16 ([payload.length, VERSION] ++ payload) &&& 0xff) 8).length = 16 := by
    simp [length_wordToBits]
  have hbb1 : bitsToByte (wordToBits payload.length 8) = payload.length :=
    bitsToByte_wordToBits _ hLlt
  have hbb2 : bitsToByte (wordToBits VERSION 8) = VERSION :=
    bitsToByte_wordToBits _ (by norm_num [VERSION])
  have hrecv : bitsToWord
      (wordToBits ((crc16 ([payload.length, VERSION] ++ payload) >>> 8) &&& 0xff) 8 ++
       wordToBits (crc16 ([payload.length, VERSION] ++ payload) &&& 0xff) 8) =
      crc16 ([payload.length, VERSION] ++ payload) := by
    rw [bitsToWord_two_bytes _ _ (and_ff_lt _) (and_ff_lt _)]
    exact crc_bytes_recombine _ (crc16_lt _)
  have hmem256 : ∀ b ∈ [payload.length, VERSION] ++ payload, b < 256 := by
    intro b hbm
    rcases List.mem_append.mp hbm with h | h
    · rcases List.mem_cons.mp h with h | h
      · rw [h]
        exact hLlt
      · rcases List.mem_cons.mp h with h2 | h2
        · rw [h2]
          norm_num [VERSION]
        · simp at h2
    · exact hb b h
  have hdata : bitsToBytes ((wordToBits payload.length 8 ++ wordToBits VERSION 8) ++
      bytesToBits payload) = [payload.length, VERSION] ++ payload := by
    have e : (wordToBits payload.length 8 ++ wordToBits VERSION 8) ++ bytesToBits payload =
        bytesToBits ([payload.length, VERSION] ++ payload) := by
      rw [bytesToBits_append]
      simp [bytesToBits]
    rw [e]
    exact bitsToBytes_bytesToBits _ hmem256
  have hpay : bitsToBytes (bytesToBits payload) = payload := bitsToBytes_bytesToBits _ hb
  have hsplitH : bytesToBits [payload.length, VERSION] =
      wordToBits payload.length 8 ++ wordToBits VERSION 8 := by
    simp [bytesToBits]
  have hsplitC : bytesToBits [(crc16 ([payload.length, VERSION] ++ payload) >>> 8) &&& 0xff,
      crc16 ([payload.length, VERSION] ++ payload) &&& 0xff] =
      wordToBits ((crc16 ([payload.length, VERSION] ++ payload) >>> 8) &&& 0xff) 8 ++
      wordToBits (crc16 ([payload.length, VERSION] ++ payload) &&& 0xff) 8 := by
    simp [bytesToBits]
  cases withFEC with
  | false =>
    refine ⟨buildPreambleBits ++ wordToBits SYNC_WORD 32 ++
      (bytesToBits [payload.length, VERSION] ++ bytesToBits payload ++
       bytesToBits [(crc16 ([payload.length, VERSION] ++ payload) >>> 8) &&& 0xff,
         crc16 ([payload.length, VERSION] ++ payload) &&& 0xff]), ?_, ?_⟩
    · simp only [buildFrameBits]
      rw [if_neg (by omega), hand]
      simp
    · have htk : (buildPreambleBits ++ wordToBits SYNC_WORD 32 ++
          (bytesToBits [payload.length, VERSION] ++ bytesToBits payload ++
           bytesToBits [(crc16 ([payload.length, VERSION] ++ payload) >>> 8) &&& 0xff,
             crc16 ([payload.length, VERSION] ++ payload) &&& 0xff])).take 112 =
          buildPreambleBits ++ wordToBits SYNC_WORD 32 := List.take_left' h112
      have hdr : (buildPreambleBits ++ wordToBits SYNC_WORD 32 ++
          (bytesToBits [payload.length, VERSION] ++ bytesToBits payload ++
           bytesToBits [(crc16 ([payload.length, VERSION] ++ payload) >>> 8) &&& 0xff,
             crc16 ([payload.length, VERSION] ++ payload) &&& 0xff])).drop 112 =
          bytesToBits [payload.length, VERSION] ++ bytesToBits payload ++
           bytesToBits [(crc16 ([payload.length, VERSION] ++ payload) >>> 8) &&& 0xff,
             crc16 ([payload.length, VERSION] ++ payload) &&& 0xff] := List.drop_left' h112
      have hne : (bytesToBits [payload.length, VERSION] ++ bytesToBits payload ++
          bytesToBits [(crc16 ([payload.length, VERSION] ++ payload) >>> 8) &&& 0xff,
            crc16 ([payload.length, VERSION] ++ payload) &&& 0xff]).isEmpty = false := by
        apply isEmpty_false_of_length_pos
        simp [length_bytesToBits]
      rw [htk, hdr, processBatches_plain2 _ hne, hsplitH, hsplitC,
        List.append_assoc (wordToBits payload.length 8 ++ wordToBits VERSION 8)
          (bytesToBits payload)
          (wordToBits ((crc16 ([payload.length, VERSION] ++ payload) >>> 8) &&& 0xff) 8 ++
           wordToBits (crc16 ([payload.length, VERSION] ++ payload) &&& 0xff) 8),
        tryDecodePlain_generic payload.length VERSION
          (crc16 ([payload.length, VERSION] ++ payload)) payload _ _ _ _ _
          hw1l hw2l hPl hCl hLlt hbb1 hbb2 hrecv hdata rfl hpay]
  | true =>
    have hmemIB0 : ∀ b ∈ bytesToBits [payload.length, VERSION] ++ bytesToBits payload ++
        bytesToBits [(crc16 ([payload.length, VERSION] ++ payload) >>> 8) &&& 0xff,
          crc16 ([payload.length, VERSION] ++ payload) &&& 0xff], b < 2 := by
      intro b hbm
      rcases List.mem_append.mp hbm with h | h
      · rcases List.mem_append.mp h with h | h
        · exact bytesToBits_mem_lt _ b h
        · exact bytesToBits_mem_lt _ b h
      · exact bytesToBits_mem_lt _ b h
    have hmemIB : ∀ b ∈ (wordToBits payload.length 8 ++ wordToBits VERSION 8) ++
        (bytesToBits payload ++
         (wordToBits ((crc16 ([payload.length, VERSION] ++ payload) >>> 8) &&& 0xff) 8 ++
          wordToBits (crc16 ([payload.length, VERSION] ++ payload) &&& 0xff) 8)), b < 2 := by
      intro b hbm
      rcases List.mem_append.mp hbm with h | h
      · rcases List.mem_append.mp h with h | h
        · exact wordToBits_mem_lt _ _ b h
        · exact wordToBits_mem_lt _ _ b h
      · rcases List.mem_append.mp h with h | h
        · exact bytesToBits_mem_lt _ b h
        · rcases List.mem_append.mp h with h | h
          · exact wordToBits_mem_lt _ _ b h
          · exact wordToBits_mem_lt _ _ b h
    refine ⟨buildPreambleBits ++ wordToBits SYNC_WORD 32 ++
      convEncode (bytesToBits [payload.length, VERSION] ++ bytesToBits payload ++
       bytesToBits [(crc16 ([payload.length, VERSION] ++ payload) >>> 8) &&& 0xff,
         crc16 ([payload.length, VERSION] ++ payload) &&& 0xff]), ?_, ?_⟩
    · simp only [buildFrameBits]
      rw [if_neg (by omega), hand]
      simp
    · have htk : (buildPreambleBits ++ wordToBits SYNC_WORD 32 ++
          convEncode (bytesToBits [payload.length, VERSION] ++ bytesToBits payload ++
           bytesToBits [(crc16 ([payload.length, VERSION] ++ payload) >>> 8) &&& 0xff,
             crc16 ([payload.length, VERSION] ++ payload) &&& 0xff])).take 112 =
          buildPreambleBits ++ wordToBits SYNC_WORD 32 := List.take_left' h112
      have hdr : (buildPreambleBits ++ wordToBits SYNC_WORD 32 ++
          convEncode (bytesToBits [payload.length, VERSION] ++ bytesToBits payload ++
           bytesToBits [(crc16 ([payload.length, VERSION] ++ payload) >>> 8) &&& 0xff,
             crc16 ([payload.length, VERSION] ++ payload) &&& 0xff])).drop 112 =
          convEncode (bytesToBits [payload.length, VERSION] ++ bytesToBits payload ++
           bytesToBits [(crc16 ([payload.length, VERSION] ++ payload) >>> 8) &&& 0xff,
             crc16 ([payload.length, VERSION] ++ payload) &&& 0xff]) := List.drop_left' h112
      have hne : (convEncode (bytesToBits [payload.length, VERSION] ++ bytesToBits payload ++
          bytesToBits [(crc16 ([payload.length, VERSION] ++ payload) >>> 8) &&& 0xff,
            crc16 ([payload.length, VERSION] ++ payload) &&& 0xff])).isEmpty = false := by
        apply isEmpty_false_of_length_pos
        rw [length_convEncode _ hmemIB0]
        have hF : FLUSH_BITS = 6 := rfl
        omega
      rw [htk, hdr, processBatches_fec2 _ hne, hsplitH, hsplitC,
        List.append_assoc (wordToBits payload.length 8 ++ wordToBits VERSION 8)
          (bytesToBits payload)
          (wordToBits ((crc16 ([payload.length, VERSION] ++ payload) >>> 8) &&& 0xff) 8 ++
           wordToBits (crc16 ([payload.length, VERSION] ++ payload) &&& 0xff) 8),
        tryDecodeFrame_generic payload.length VERSION
          (crc16 ([payload.length, VERSION] ++ payload)) payload _ _ _ _ _ _ true
          hw1l hw2l hPl hCl hLlt hmemIB hbb1 hbb2 hrecv hdata rfl hpay]

theorem c1_frame_roundtrip_witness :
    ((∀ b ∈ [104, 105], b < 256) ∧ [104, 105].length ≤ 255) ∧
    (∃ fb, buildFrameBits [104, 105] false = some fb ∧
      (processBatches false [fb.take 112, fb.drop 112]).2 =
        [RxEvent.frameText [104, 105] [104, 105].length VERSION]) ∧
    (∃ fb, buildFrameBits [104, 105] true = some fb ∧
      (processBatches true [fb.take 112, fb.drop 112]).2 =
        [RxEvent.frameText [104, 105] [104, 105].length VERSION]) :=
  ⟨⟨by decide, by norm_num⟩,
   c1_frame_roundtrip [104, 105] false (by decide) (by norm_num),
   c1_frame_roundtrip [104, 105] true (by decide) (by norm_num)⟩

/-- `fecNeededCoded` spelled out over the raw decoder output (a plain
unfolding, stated generically so rewriting with it never forces a
closed-term evaluation). -/
theorem fecNeededCoded_eq (st : SyncState) :
    fecNeededCoded st = 2 * (16 + bitsToByte (((viterbiDecode st.codedBuffer).take
      ((viterbiDecode st.codedBuffer).length - FLUSH_BITS)).take 8) * 8 + 16 +
      FLUSH_BITS) := rfl

set_option maxRecDepth 100000 in
/-- C5 witness: a complete plain frame for the empty payload, and a
complete coded buffer (the encoding of 32 zero info bits) on the FEC
side. -/
theorem c5_post_frame_rearm_witness :
    (tryDecodePlain ⟨bytesToBits [0, 1, 13, 46], [], true⟩).1 = initialSyncState ∧
    (tryDecodeFrame ⟨[], convEncode (List.replicate 32 0), true⟩).1 = initialSyncState := by
  refine ⟨((c5_post_frame_rearm ⟨bytesToBits [0, 1, 13, 46], [], true⟩).1 rfl (by decide)).1, ?_⟩
  apply ((c5_post_frame_rearm ⟨[], convEncode (List.replicate 32 0), true⟩).2 ?_).1
  have hmem : ∀ b ∈ List.replicate (32 : Nat) (0 : Nat), b < 2 := by
    intro b hbm
    rw [List.eq_of_mem_replicate hbm]
    norm_num
  have hmem2 : ∀ b ∈ List.replicate (32 : Nat) (0 : Nat) ++ List.replicate FLUSH_BITS 0,
      b < 2 := by
    intro b hbm
    rcases List.mem_append.mp hbm with h | h
    · exact hmem b h
    · rw [List.eq_of_mem_replicate h]
      norm_num
  have hdec : viterbiDecode (convEncode (List.replicate 32 0)) =
      List.replicate 32 0 ++ List.replicate FLUSH_BITS 0 := by
    rw [convEncode_eq _ hmem, viterbi_encodeFrom _ hmem2]
  rw [fecNeededCoded_eq]
  rw [show (SyncState.mk [] (convEncode (List.replicate 32 0)) true).codedBuffer =
      convEncode (List.replicate 32 0) from rfl]
  rw [hdec]
  decide

end SpectrumSend
